import Mathlib

/-!
# filecache: a file-backed key/value cache with expiration

A shallow embedding of `filecache.go`.  The cache keeps an in-memory index
(`items`, a Go map from key to `Item`) and one artifact file per entry in a
cache directory.  The embedding makes the state explicit:

* the index is a finite map from keys to items;
* the cache directory is a finite map from file names to file contents;
* the four hooks are observed through the list of their invocations;
* `time.Now()` is an argument, in Unix nanoseconds: `now` for the operations
  that call it once, and one reading per visited entry (`clock`) for
  `DeleteExpired`, which calls it in `IsExpired` at every iteration;
* `crypto/md5` and `encoding/json` are the fields of `Lib`;
* file-system failures are injected through `Faults`;
* a Go `panic` is the `panicked` outcome.

Every operation is modelled as it runs on its own, from the first statement
to the last; interleavings of goroutines are not part of the embedding.  What
each method does with the reader/writer mutex is followed separately, as the
sequence of its lock calls and of the changes it makes while it holds them.
The shared `hash` object of `keyToFilename` is modelled by `Hasher`; the name
it yields does not depend on its state, so the operations use the function
`keyToFilename` of the key and the expiration.
-/

namespace Filecache

/-! ## External collaborators -/

/-- The library functions the cache relies on: `md5hex key` is
`hex.EncodeToString` of the MD5 digest of `key`, `marshal` is `json.Marshal`
(`none` when it returns an error) and `unmarshal` is `json.Unmarshal` into an
empty interface (`none` when it returns an error). -/
structure Lib (V : Type) where
  md5hex : String → String
  marshal : V → Option String
  unmarshal : String → Option V

/-- Injected file-system failures, per file name: when the flag of a name is
set, the corresponding system call on that name returns an error. -/
structure Faults where
  create : String → Bool
  write : String → Bool
  read : String → Bool
  remove : String → Bool

/-- The file system that fails only for missing files. -/
def Faults.none : Faults :=
  ⟨fun _ => false, fun _ => false, fun _ => false, fun _ => false⟩

/-- The regular files of the cache directory: file name to content.  The
empty name is `path.Join(dir, "")`, the directory itself, never a file. -/
abbrev Dir := AList (fun _ : String => String)

/-- Model of `os.Create(path.Join(dir, name))`: creates the file or truncates it. -/
def osCreate (io : Faults) (files : Dir) (name : String) : Option Dir :=
  if name = "" ∨ io.create name = true then none else some (files.insert name "")

/-- Model of `file.WriteString(content)` on the file just created under `name`;
a failed write leaves the file as `os.Create` left it. -/
def writeString (io : Faults) (files : Dir) (name content : String) : Option Dir :=
  if io.write name = true then none else some (files.insert name content)

/-- Model of `ioutil.ReadFile(path.Join(dir, name))`. -/
def readFile (io : Faults) (files : Dir) (name : String) : Option String :=
  if name = "" ∨ io.read name = true then none else files.lookup name

/-- Model of `os.Remove(path.Join(dir, name))`: fails on a missing file.  The
empty name is not a file; no item the cache builds carries it. -/
def osRemove (io : Faults) (files : Dir) (name : String) : Option Dir :=
  if name = "" ∨ io.remove name = true then none
  else if (files.lookup name).isSome then some (files.erase name) else none

/-! ## Data model -/

/-- Wrap-around of a mathematical integer into the range of `int64`, as the
`int64` arithmetic of `UnixNano` computes it. -/
def wrapInt64 (x : Int) : Int := (x + 2 ^ 63) % 2 ^ 64 - 2 ^ 63

/-- The value of `time.Now().Add(d).UnixNano()` when the clock reads `now`:
the instant `now + d` when it fits an `int64`, its wrap-around otherwise (Go
documents the result as undefined there). -/
def unixNanoAfter (now d : Int) : Int := wrapInt64 (now + d)

/-- The artifact name: `fmt.Sprintf("%s_%d", hex(md5(key)), expired)`. -/
def keyToFilename {V : Type} (lib : Lib V) (key : String) (expired : Int) : String :=
  lib.md5hex key ++ "_" ++ toString expired

/-- The package-level `hash` object (`md5.New()`), shared by all calls: the
bytes written to it since its last `Reset`. -/
structure Hasher where
  written : String

/-- Model of `hash.Reset()`. -/
def Hasher.Reset (_h : Hasher) : Hasher := ⟨""⟩

/-- Model of `hash.Write([]byte(s))`. -/
def Hasher.Write (h : Hasher) (s : String) : Hasher := ⟨h.written ++ s⟩

/-- Model of `hex.EncodeToString(hash.Sum(nil))`: the digest of the bytes
written so far. -/
def Hasher.SumHex {V : Type} (lib : Lib V) (h : Hasher) : String := lib.md5hex h.written

/-- The function `keyToFilename` as the source runs it, on the shared hash
object: it returns the name and the state it leaves the object in. -/
def keyToFilenameWith {V : Type} (lib : Lib V) (hash : Hasher) (key : String)
    (expired : Int) : String × Hasher :=
  let h1 := hash.Reset
  let h2 := h1.Write key
  (h2.SumHex lib ++ "_" ++ toString expired, h2)

/-- The metadata of one cached entry. -/
structure Item where
  expiration : Int
  filename : String
deriving DecidableEq, Repr

/-- The zero value of `Item`, what a Go map yields for a missing key. -/
def Item.zero : Item := ⟨0, ""⟩

/-- The method `IsExpired`: `time.Now().UnixNano() > i.expiration`. -/
def Item.IsExpired (i : Item) (now : Int) : Bool := decide (now > i.expiration)

/-- The method `Filename`. -/
def Item.Filename (i : Item) : String := i.filename

/-- One invocation of a hook, with its arguments. -/
inductive HookEvent (V : Type)
  | onSet (k : String) (v : V)
  | onDelete (k : String) (v : V)
  | onAdd (k : String) (v : V)
  | onReplace (k : String) (originV newV : V)
deriving DecidableEq, Repr

/-- The error values the operations return. -/
inductive Err
  | notExisted
  | existed
  | createFailed
  | writeFailed
  | readFailed
  | removeFailed
  | marshalFailed
  | unmarshalFailed
deriving DecidableEq, Repr

/-- The cache: the index, the content of its directory, and the hook
invocations so far (oldest first). -/
structure FileCache (V : Type) where
  items : AList (fun _ : String => Item)
  files : Dir
  calls : List (HookEvent V)

/-- How a call ends: it returns `r`, or it panics; either way the cache is
left in the given state. -/
inductive Outcome (V α : Type)
  | returned (f : FileCache V) (r : α)
  | panicked (f : FileCache V)

/-- The cache a call leaves behind, however it ends. -/
def Outcome.state {V α : Type} : Outcome V α → FileCache V
  | .returned f _ => f
  | .panicked f => f

/-- The value a call returns, when it returns. -/
def Outcome.result {V α : Type} : Outcome V α → Option α
  | .returned _ r => some r
  | .panicked _ => none

/-- The constructor `New` on an empty directory. -/
def New (V : Type) : FileCache V := ⟨∅, ∅, []⟩

/-! ## Operations -/

/-- The map read `f.items[k]`. -/
def FileCache.item {V : Type} (f : FileCache V) (k : String) : Item :=
  (f.items.lookup k).getD Item.zero

/-- The method `Has`. -/
def FileCache.Has {V : Type} (f : FileCache V) (k : String) : Bool :=
  (f.items.lookup k).isSome

/-- The method `ItemCount`: `len(f.items)`. -/
def FileCache.ItemCount {V : Type} (f : FileCache V) : Nat :=
  f.items.keys.length

/-- The unexported method `set`: creates and writes the artifact, then
records the item; every failure is a panic. -/
def FileCache.set {V : Type} (lib : Lib V) (io : Faults) (now : Int) (f : FileCache V)
    (k : String) (x : V) (d : Int) : Outcome V Unit :=
  let expiration := unixNanoAfter now d
  let filename := keyToFilename lib k expiration
  match osCreate io f.files filename with
  | none => .panicked f
  | some files1 =>
    match lib.marshal x with
    | none => .panicked { f with files := files1 }
    | some content =>
      match writeString io files1 filename content with
      | none => .panicked { f with files := files1 }
      | some files2 =>
        .returned { f with files := files2, items := f.items.insert k ⟨expiration, filename⟩ } ()

/-- The method `Set`. -/
def FileCache.Set {V : Type} (lib : Lib V) (io : Faults) (now : Int) (f : FileCache V)
    (k : String) (x : V) (d : Int) : Outcome V Unit :=
  let has := f.Has k
  let removed : Option (FileCache V) :=
    if has then
      (osRemove io f.files (f.item k).filename).map
        (fun files1 => { f with files := files1, items := f.items.erase k })
    else some f
  match removed with
  | none => .panicked f
  | some f1 =>
    match f1.set lib io now k x d with
    | .panicked f2 => .panicked f2
    | .returned f2 _ => .returned { f2 with calls := f2.calls ++ [HookEvent.onSet k x] } ()

/-- The unexported method `delete`: reads and decodes the artifact, removes
the file, removes the index entry.  It returns the cache it leaves and either
the error or the decoded value. -/
def FileCache.delete {V : Type} (lib : Lib V) (io : Faults) (f : FileCache V)
    (k : String) : FileCache V × Except Err V :=
  let filename := (f.item k).filename
  match readFile io f.files filename with
  | none => (f, .error Err.readFailed)
  | some content =>
    match lib.unmarshal content with
    | none => (f, .error Err.unmarshalFailed)
    | some v =>
      match osRemove io f.files filename with
      | none => (f, .error Err.removeFailed)
      | some files1 => ({ f with files := files1, items := f.items.erase k }, .ok v)

/-- The method `Delete`; the result is the pair `(value, error)`. -/
def FileCache.Delete {V : Type} (lib : Lib V) (io : Faults) (f : FileCache V)
    (k : String) : Outcome V (Option V × Option Err) :=
  let has := f.Has k
  if has = false then .returned f (none, some Err.notExisted)
  else
    match f.delete lib io k with
    | (f1, .error err) => .returned f1 (none, some err)
    | (f1, .ok v) => .returned { f1 with calls := f1.calls ++ [HookEvent.onDelete k v] } (some v, none)

/-- The method `Add`; the result is the pair `(bool, error)`. -/
def FileCache.Add {V : Type} (lib : Lib V) (io : Faults) (now : Int) (f : FileCache V)
    (k : String) (x : V) (d : Int) : Outcome V (Bool × Option Err) :=
  let has := f.Has k
  if has then .returned f (false, some Err.existed)
  else
    let expiration := unixNanoAfter now d
    let filename := keyToFilename lib k expiration
    match lib.marshal x with
    | none => .returned f (false, some Err.marshalFailed)
    | some content =>
      match osCreate io f.files filename with
      | none => .returned f (false, some Err.createFailed)
      | some files1 =>
        match writeString io files1 filename content with
        | none => .returned { f with files := files1 } (false, some Err.writeFailed)
        | some files2 =>
          .returned
            { files := files2
              items := f.items.insert k ⟨expiration, filename⟩
              calls := f.calls ++ [HookEvent.onAdd k x] }
            (true, none)

/-- The method `Get`; the result is the pair `(value, found)`. -/
def FileCache.Get {V : Type} (lib : Lib V) (io : Faults) (now : Int) (f : FileCache V)
    (k : String) : Outcome V (Option V × Bool) :=
  let has := f.Has k
  if has = false then .returned f (none, false)
  else
    let item := f.item k
    if item.IsExpired now then .returned (f.delete lib io k).1 (none, false)
    else
      match readFile io f.files (f.item k).filename with
      | none => .returned f (none, false)
      | some content =>
        match lib.unmarshal content with
        | none => .returned f (none, false)
        | some v => .returned f (some v, true)

/-- The method `Replace`; the result is the pair `(bool, error)`. -/
def FileCache.Replace {V : Type} (lib : Lib V) (io : Faults) (now : Int) (f : FileCache V)
    (k : String) (x : V) (d : Int) : Outcome V (Bool × Option Err) :=
  let has := f.Has k
  if has = false then .returned f (false, some Err.notExisted)
  else
    match f.delete lib io k with
    | (f1, .error err) => .returned f1 (false, some err)
    | (f1, .ok oldV) =>
      match f1.set lib io now k x d with
      | .panicked f2 => .panicked f2
      | .returned f2 _ =>
        .returned { f2 with calls := f2.calls ++ [HookEvent.onReplace k oldV x] } (true, none)

/-- The loop of `Clear` over the keys in the order `range` yields them; the
flag is false when a removal failed and the loop was left. -/
def FileCache.clearLoop {V : Type} (lib : Lib V) (io : Faults) :
    FileCache V → List String → FileCache V × Bool
  | f, [] => (f, true)
  | f, k :: rest =>
    if f.Has k then
      match f.delete lib io k with
      | (f1, .error _) => (f1, false)
      | (f1, .ok _) => FileCache.clearLoop lib io f1 rest
    else FileCache.clearLoop lib io f rest

/-- The method `Clear`; `order` is the order in which `range f.items` yields
the keys, which Go leaves unspecified. -/
def FileCache.Clear {V : Type} (lib : Lib V) (io : Faults) (order : List String)
    (f : FileCache V) : Outcome V Bool :=
  match FileCache.clearLoop lib io f order with
  | (f1, false) => .returned f1 false
  | (f1, true) => .returned { f1 with items := ∅ } true

/-- The method `DeleteExpired`; `order` is the order in which `range f.items`
yields the keys, which Go leaves unspecified.  A key that is no longer in the
map when its turn comes is not yielded.  `item.IsExpired()` calls `time.Now()`
for every entry the loop visits: `clock k` is the reading it gets for the
entry of `k`. -/
def FileCache.DeleteExpired {V : Type} (lib : Lib V) (io : Faults) (clock : String → Int) :
    List String → FileCache V → Outcome V (Bool × Option Err)
  | [], f => .returned f (true, none)
  | k :: rest, f =>
    match f.items.lookup k with
    | none => FileCache.DeleteExpired lib io clock rest f
    | some item =>
      if item.IsExpired (clock k) then
        match f.delete lib io k with
        | (f1, .error err) => .returned f1 (false, some err)
        | (f1, .ok _) => FileCache.DeleteExpired lib io clock rest f1
      else FileCache.DeleteExpired lib io clock rest f

/-! ## The calls on the mutex

The same methods, followed for what they do with `f.mutex` and for what they
change while they hold it: the calls `RLock`, `RUnlock`, `Lock`, `Unlock` (a
deferred unlock is the last step), each read of `f.items`, and each change of
`f.items` or of the directory. -/

/-- One step of a method, as far as the lock is concerned. -/
inductive LockStep
  | RLock
  | RUnlock
  | Lock
  | Unlock
  | readItems
  | removeFile (name : String)
  | deleteItem (k : String)
  | createFile (name : String)
  | putItem (k : String)
deriving DecidableEq, Repr

/-- What the calling goroutine holds of `f.mutex`. -/
inductive Held
  | nothing
  | read
  | write
deriving DecidableEq, Repr

/-- The lock held after a step. -/
def Held.step : Held → LockStep → Held
  | _, .RLock => .read
  | _, .Lock => .write
  | _, .RUnlock => .nothing
  | _, .Unlock => .nothing
  | h, _ => h

/-- A step that changes the index or the directory. -/
def LockStep.isMutation : LockStep → Bool
  | .removeFile _ => true
  | .deleteItem _ => true
  | .createFile _ => true
  | .putItem _ => true
  | _ => false

/-- Every change of the index or of the directory in the steps happens while
the write lock is held. -/
def writeLockedMutations : Held → List LockStep → Bool
  | _, [] => true
  | h, s :: rest =>
    (if s.isMutation then decide (h = Held.write) else true) &&
      writeLockedMutations (h.step s) rest

/-- Every read of the index in the steps happens while a lock is held. -/
def lockedReads : Held → List LockStep → Bool
  | _, [] => true
  | h, s :: rest =>
    (if s = LockStep.readItems then decide (h ≠ Held.nothing) else true) &&
      lockedReads (h.step s) rest

/-- The steps of `Has`: `RLock`, deferred `RUnlock`, one lookup. -/
def FileCache.HasSteps : List LockStep := [.RLock, .readItems, .RUnlock]

/-- The steps of `ItemCount`: `RLock`, deferred `RUnlock`, `len(f.items)`. -/
def FileCache.ItemCountSteps : List LockStep := [.RLock, .readItems, .RUnlock]

/-- The steps of the unexported `delete`, which takes no lock itself. -/
def FileCache.deleteSteps {V : Type} (lib : Lib V) (io : Faults) (f : FileCache V)
    (k : String) : List LockStep :=
  match f.delete lib io k with
  | (_, .error _) => [.readItems]
  | (_, .ok _) => [.readItems, .removeFile (f.item k).filename, .deleteItem k]

/-- The steps of the unexported `set`, which takes no lock itself. -/
def FileCache.setSteps {V : Type} (lib : Lib V) (io : Faults) (now : Int) (f : FileCache V)
    (k : String) (x : V) (d : Int) : List LockStep :=
  let filename := keyToFilename lib k (unixNanoAfter now d)
  match osCreate io f.files filename with
  | none => []
  | some files1 =>
    match lib.marshal x with
    | none => [.createFile filename]
    | some content =>
      match writeString io files1 filename content with
      | none => [.createFile filename]
      | some _ => [.createFile filename, .putItem k]

/-- The steps of `Set`: `Has`, then `Lock` with a deferred `Unlock`. -/
def FileCache.SetSteps {V : Type} (lib : Lib V) (io : Faults) (now : Int) (f : FileCache V)
    (k : String) (x : V) (d : Int) : List LockStep :=
  FileCache.HasSteps ++ [.Lock] ++
    (if f.Has k then
      match osRemove io f.files (f.item k).filename with
      | none => [.readItems]
      | some files1 =>
        [.readItems, .removeFile (f.item k).filename, .deleteItem k] ++
          FileCache.setSteps lib io now
            { f with files := files1, items := f.items.erase k } k x d
    else FileCache.setSteps lib io now f k x d) ++ [.Unlock]

/-- The steps of `Delete`: `Has`, then `Lock` with a deferred `Unlock`. -/
def FileCache.DeleteSteps {V : Type} (lib : Lib V) (io : Faults) (f : FileCache V)
    (k : String) : List LockStep :=
  FileCache.HasSteps ++
    (if f.Has k = false then [] else [.Lock] ++ f.deleteSteps lib io k ++ [.Unlock])

/-- The steps of `Get`: `Has`, then `RLock` with a deferred `RUnlock`. -/
def FileCache.GetSteps {V : Type} (lib : Lib V) (io : Faults) (now : Int) (f : FileCache V)
    (k : String) : List LockStep :=
  FileCache.HasSteps ++
    (if f.Has k = false then []
     else [.RLock, .readItems] ++
       (if (f.item k).IsExpired now then f.deleteSteps lib io k else [.readItems]) ++
       [.RUnlock])

/-- The steps of `Replace`: `Has`, then `RLock` with a deferred `RUnlock`. -/
def FileCache.ReplaceSteps {V : Type} (lib : Lib V) (io : Faults) (now : Int)
    (f : FileCache V) (k : String) (x : V) (d : Int) : List LockStep :=
  FileCache.HasSteps ++
    (if f.Has k = false then []
     else [.RLock] ++ f.deleteSteps lib io k ++
       (match f.delete lib io k with
        | (_, .error _) => []
        | (f1, .ok _) => f1.setSteps lib io now k x d) ++
       [.RUnlock])

/-! ## The index/directory invariant -/

/-- The index matches the directory: the artifact names recorded in the index
are, up to order, exactly the names of the files in the directory (so distinct
keys have distinct artifacts and no file is orphaned), and every file is a
named regular file whose content decodes. -/
def IndexMatchesDir {V : Type} (lib : Lib V) (f : FileCache V) : Prop :=
  (f.items.entries.map (fun e => e.2.filename)).Perm f.files.keys ∧
  ∀ e ∈ f.files.entries, e.1 ≠ "" ∧ (lib.unmarshal e.2).isSome = true

instance {V : Type} (lib : Lib V) (f : FileCache V) : Decidable (IndexMatchesDir lib f) := by
  unfold IndexMatchesDir
  infer_instance

/-- The frame of a step from `f` to `g` seen from the key `k`: the index
entry of `k` is the same, and so is every file whose name is not in `touched`. -/
def FrameOf {V : Type} (f g : FileCache V) (k : String) (touched : List String) : Prop :=
  g.items.lookup k = f.items.lookup k ∧
  ∀ n, n ∉ touched → g.files.lookup n = f.files.lookup n

/-! ## Sequences of calls -/

/-- A call of one of the public operations, with its arguments. -/
inductive Call (V : Type)
  | Set (k : String) (x : V) (d : Int)
  | Add (k : String) (x : V) (d : Int)
  | Get (k : String)
  | Replace (k : String) (x : V) (d : Int)
  | Delete (k : String)
  | Clear (order : List String)
  | DeleteExpired (order : List String) (clock : String → Int)

/-- The key a call is about. -/
def Call.keys {V : Type} : Call V → List String
  | .Set k _ _ => [k]
  | .Add k _ _ => [k]
  | .Get k => [k]
  | .Replace k _ _ => [k]
  | .Delete k => [k]
  | .Clear _ => []
  | .DeleteExpired _ _ => []

/-- The cache a call leaves, whether it returns a value, an error, or panics. -/
def FileCache.call {V : Type} (lib : Lib V) (io : Faults) (now : Int) (f : FileCache V) :
    Call V → FileCache V
  | .Set k x d => (f.Set lib io now k x d).state
  | .Add k x d => (f.Add lib io now k x d).state
  | .Get k => (f.Get lib io now k).state
  | .Replace k x d => (f.Replace lib io now k x d).state
  | .Delete k => (f.Delete lib io k).state
  | .Clear order => (f.Clear lib io order).state
  | .DeleteExpired order clock => (f.DeleteExpired lib io clock order).state

/-- The cache after a sequence of calls, each with the failures the file
system shows during it and the clock reading it sees. -/
def FileCache.run {V : Type} (lib : Lib V) :
    FileCache V → List (Faults × Int × Call V) → FileCache V
  | f, [] => f
  | f, (io, now, c) :: rest => FileCache.run lib (f.call lib io now c) rest

/-- The keys the calls of a sequence are about. -/
def usedKeys {V : Type} : List (Faults × Int × Call V) → List String
  | [] => []
  | (_, _, c) :: rest => c.keys ++ usedKeys rest

/-- No two distinct keys of `keys` have a common artifact name. -/
def NoCollision {V : Type} (lib : Lib V) (keys : List String) : Prop :=
  ∀ k ∈ keys, ∀ k' ∈ keys, k ≠ k' → ∀ e e', keyToFilename lib k e ≠ keyToFilename lib k' e'

/-- Every indexed key is one of `keys`, its artifact carries the name derived
from the key and the recorded expiration, exists and decodes. -/
def EntriesBacked {V : Type} (lib : Lib V) (keys : List String) (f : FileCache V) : Prop :=
  ∀ k it, f.items.lookup k = some it →
    k ∈ keys ∧ it.filename = keyToFilename lib k it.expiration ∧
    ∃ c, f.files.lookup it.filename = some c ∧ (lib.unmarshal c).isSome = true

/-! ## Concrete instances used to exercise the model -/

/-- A small universe of cached values: `num n` is the `float64` number `n`,
which is what `json.Unmarshal` yields for a JSON number; `int n` is the Go
`int` `n`; `chan` is a Go channel, which `json.Marshal` rejects.  In the
comments below, a number stored as `num` is written without its type. -/
inductive DemoValue
  | num (n : Nat)
  | chan
  | int (n : Nat)
deriving DecidableEq, Repr

/-- Decimal reading of a string of digits. -/
def readDigits (s : String) : Option Nat :=
  if s.data ≠ [] ∧ s.data.all Char.isDigit = true then
    some (s.data.foldl (fun n c => 10 * n + (c.toNat - 48)) 0)
  else none

/-- A stand-in library: numbers are written in decimal and read back as
`float64` numbers, the digest of a key is the key itself. -/
def demoLib : Lib DemoValue where
  md5hex := fun k => k
  marshal := fun v =>
    match v with
    | .num n => some (toString n)
    | .chan => none
    | .int n => some (toString n)
  unmarshal := fun s => (readDigits s).map DemoValue.num

/-- Known answers of `crypto/md5`, in hexadecimal, for the keys used below;
any other key is given the digest of the empty string. -/
def md5Known (k : String) : String :=
  if k = "test_key" then "8c32d1183251df9828f929b935ae0419"
  else if k = "a" then "0cc175b9c0f1b6a831c399e269772661"
  else if k = "b" then "92eb5ffee6ae2fec3ad71c777531578f"
  else "d41d8cd98f00b204e9800998ecf8427e"

/-- The stand-in library with the known digests. -/
def testLib : Lib DemoValue where
  md5hex := md5Known
  marshal := demoLib.marshal
  unmarshal := demoLib.unmarshal

/-- One hour, in nanoseconds (`time.Hour`). -/
def hour : Int := 3600000000000

/-- A clock reading, in Unix nanoseconds. -/
def t0 : Int := 1700000000000000000

/-- The cache after `Set("a", 1, time.Hour)` on a new cache at `t0`. -/
def demoCache : FileCache DemoValue :=
  ((New DemoValue).Set demoLib Faults.none t0 "a" (.num 1) hour).state

/-- The cache after `Set("b", 7, time.Hour)` on a new cache at `t0`. -/
def demoOther : FileCache DemoValue :=
  ((New DemoValue).Set demoLib Faults.none t0 "b" (.num 7) hour).state

/-- The cache after `Add("t", 42, time.Hour)` on a new cache at `t0`. -/
def demoAdded : FileCache DemoValue :=
  ((New DemoValue).Add demoLib Faults.none t0 "t" (.num 42) hour).state

/-- The cache after `Delete("a")` on `demoCache`. -/
def demoDeleted : FileCache DemoValue :=
  (demoCache.Delete demoLib Faults.none "a").state

/-- The cache after `Set("a", 1, -time.Hour)` on a new cache at `t0`: its
only entry is expired from the start. -/
def demoStale : FileCache DemoValue :=
  ((New DemoValue).Set demoLib Faults.none t0 "a" (.num 1) (-hour)).state

/-- The cache after `Set("k1", 1, -time.Hour)` and `Set("k2", 2, time.Hour)`
on a new cache. -/
def demoSweep : FileCache DemoValue :=
  (((New DemoValue).Set demoLib Faults.none t0 "k1" (.num 1) (-hour)).state.Set
    demoLib Faults.none (t0 + 1) "k2" (.num 2) hour).state

/-- A cache whose index holds "a" while its directory is empty. -/
def demoOrphan : FileCache DemoValue := ⟨demoCache.items, ∅, []⟩

/-- A cache whose index holds "a" while the artifact of "a" is not JSON. -/
def demoGarbled : FileCache DemoValue :=
  ⟨demoCache.items, AList.insert (keyToFilename demoLib "a" (t0 + hour)) "x" ∅, []⟩

/-- The cache after `Set("k", 1, 2ns)` on a new cache at `t0`. -/
def demoBrief : FileCache DemoValue :=
  ((New DemoValue).Set demoLib Faults.none t0 "k" (.num 1) 2).state

/-- The cache after `Set("a", 1, time.Hour)` and `Set("b", 7, time.Hour)` on a
new cache. -/
def demoPair : FileCache DemoValue :=
  (demoCache.Set demoLib Faults.none (t0 + 1) "b" (.num 7) hour).state

/-- The cache after `Set("a", 2, time.Hour)` on `demoCache`, one nanosecond
after the first write. -/
def demoRewritten : FileCache DemoValue :=
  (demoCache.Set demoLib Faults.none (t0 + 1) "a" (.num 2) hour).state

/-- A file system on which every write to a file fails. -/
def Faults.noWrite : Faults :=
  ⟨fun _ => false, fun _ => true, fun _ => false, fun _ => false⟩

/-- A sequence of calls on a new cache: a `Set`, an `Add` with an elapsed
ttl, a `Replace` that panics, an `Add` that returns a write error, a `Get`
that evicts, a `Set` and a sweep. -/
def demoSteps : List (Faults × Int × Call DemoValue) :=
  [(Faults.none, t0, .Set "a" (.num 1) hour),
   (Faults.none, t0 + 1, .Add "b" (.num 7) (-hour)),
   (Faults.none, t0 + 2, .Replace "a" .chan hour),
   (Faults.noWrite, t0 + 3, .Add "a" (.num 3) hour),
   (Faults.none, t0 + 4, .Get "b"),
   (Faults.none, t0 + 5, .Set "b" (.num 9) hour),
   (Faults.none, t0 + 6, .DeleteExpired ["a", "b"] (fun _ => t0 + 6))]

/-- The largest `time.Duration`, `math.MaxInt64` nanoseconds. -/
def maxDuration : Int := 9223372036854775807

/-- The cache after `Add("t", 42, math.MaxInt64)` on a new cache at `t0`. -/
def demoForever : FileCache DemoValue :=
  ((New DemoValue).Add demoLib Faults.none t0 "t" (.int 42) maxDuration).state

/-- The cache after `Set("a", 2, time.Hour)` on `demoCache`, the value being
the Go `int` 2. -/
def demoIntSet : FileCache DemoValue :=
  (demoCache.Set demoLib Faults.none (t0 + 1) "a" (.int 2) hour).state

/-- The cache after `Set("a", 2, math.MaxInt64)` on `demoCache`. -/
def demoForeverSet : FileCache DemoValue :=
  (demoCache.Set demoLib Faults.none (t0 + 1) "a" (.num 2) maxDuration).state

/-- The cache after `Replace("a", 2, time.Hour)` on `demoCache`, the value
being the Go `int` 2. -/
def demoIntReplaced : FileCache DemoValue :=
  (demoCache.Replace demoLib Faults.none (t0 + 1) "a" (.int 2) hour).state

/-- The cache after `Replace("a", 2, math.MaxInt64)` on `demoCache`. -/
def demoForeverReplaced : FileCache DemoValue :=
  (demoCache.Replace demoLib Faults.none (t0 + 1) "a" (.num 2) maxDuration).state

/-- The cache after `Set("k1", 1, 2ns)` at `t0` and `Set("k2", 2, 1ns)` one
nanosecond later: two entries with the same expiration `t0 + 2`. -/
def demoTwins : FileCache DemoValue :=
  (((New DemoValue).Set demoLib Faults.none t0 "k1" (.num 1) 2).state.Set
    demoLib Faults.none (t0 + 1) "k2" (.num 2) 1).state

/-- A clock that advances during a sweep: it reads `t0 + 2` when the entry of
"k1" is visited and `t0 + 3` when any other entry is. -/
def demoClock (k : String) : Int := if k = "k1" then t0 + 2 else t0 + 3

/-! ## Basic facts -/

section Basic
variable {V : Type}

theorem wrapInt64_of_inRange (x : Int) (hlo : -2 ^ 63 ≤ x) (hhi : x < 2 ^ 63) :
    wrapInt64 x = x := by
  unfold wrapInt64
  norm_num at hlo hhi ⊢
  omega

theorem unixNanoAfter_of_inRange (now d : Int) (hlo : -2 ^ 63 ≤ now + d)
    (hhi : now + d < 2 ^ 63) : unixNanoAfter now d = now + d :=
  wrapInt64_of_inRange _ hlo hhi

theorem keyToFilename_ne_empty (lib : Lib V) (k : String) (e : Int) :
    keyToFilename lib k e ≠ "" := by
  intro h
  have hlen := congrArg String.length h
  simp [keyToFilename, String.length_append] at hlen
  exact absurd hlen.1.2 (by decide)

theorem Get_hit (lib : Lib V) (io : Faults) (now : Int) (f : FileCache V) (k : String)
    (it : Item) (c : String) (v : V)
    (hit : f.items.lookup k = some it) (hexp : now ≤ it.expiration)
    (hne : it.filename ≠ "") (hr : io.read it.filename = false)
    (hfile : f.files.lookup it.filename = some c) (hu : lib.unmarshal c = some v) :
    f.Get lib io now k = .returned f (some v, true) := by
  have hitem : f.item k = it := by simp [FileCache.item, hit]
  have hhas : f.Has k = true := by simp [FileCache.Has, hit]
  have hx : it.IsExpired now = false := by simp [Item.IsExpired, not_lt.mpr hexp]
  have hread : readFile io f.files it.filename = some c := by simp [readFile, hne, hr, hfile]
  simp only [FileCache.Get, hhas, hitem, hx, hread, hu]
  simp

theorem Add_ok (lib : Lib V) (io : Faults) (now : Int) (f : FileCache V) (k : String)
    (x : V) (d : Int) (c : String)
    (hk : f.Has k = false) (hm : lib.marshal x = some c)
    (hc : io.create (keyToFilename lib k (unixNanoAfter now d)) = false)
    (hw : io.write (keyToFilename lib k (unixNanoAfter now d)) = false) :
    f.Add lib io now k x d = .returned
      ⟨f.items.insert k ⟨unixNanoAfter now d, keyToFilename lib k (unixNanoAfter now d)⟩,
       f.files.insert (keyToFilename lib k (unixNanoAfter now d)) c,
       f.calls ++ [HookEvent.onAdd k x]⟩ (true, none) := by
  simp [FileCache.Add, hk, hm, osCreate, writeString, keyToFilename_ne_empty, hc, hw]

theorem insert_erase_self {β : Type} (s : AList (fun _ : String => β)) (k : String) (b : β) :
    (s.erase k).insert k b = s.insert k b := by
  apply AList.ext
  simp only [AList.insert_entries, AList.erase, List.cons.injEq, true_and]
  apply List.kerase_of_not_mem_keys
  intro hmem
  have h1 : k ∈ s.erase k := AList.mem_keys.mpr hmem
  exact (AList.mem_erase.mp h1).1 rfl

theorem delete_ok (lib : Lib V) (io : Faults) (f : FileCache V) (k : String)
    (it : Item) (c : String) (v : V)
    (hit : f.items.lookup k = some it)
    (hne : it.filename ≠ "") (hr : io.read it.filename = false)
    (hrm : io.remove it.filename = false)
    (hfile : f.files.lookup it.filename = some c) (hu : lib.unmarshal c = some v) :
    f.delete lib io k = (⟨f.items.erase k, f.files.erase it.filename, f.calls⟩, .ok v) := by
  have hitem : f.item k = it := by simp [FileCache.item, hit]
  have hread : readFile io f.files it.filename = some c := by simp [readFile, hne, hr, hfile]
  have hrem : osRemove io f.files it.filename = some (f.files.erase it.filename) := by
    simp [osRemove, hne, hrm, hfile]
  simp only [FileCache.delete, hitem, hread, hu, hrem]

theorem delete_error (lib : Lib V) (io : Faults) (f f1 : FileCache V) (k : String) (e : Err)
    (h : f.delete lib io k = (f1, .error e)) : f1 = f := by
  simp only [FileCache.delete] at h
  split at h
  · exact (Prod.mk.inj h).1.symm
  · split at h
    · exact (Prod.mk.inj h).1.symm
    · split at h
      · exact (Prod.mk.inj h).1.symm
      · exact absurd (Prod.mk.inj h).2 (by simp)

theorem delete_calls (lib : Lib V) (io : Faults) (f : FileCache V) (k : String) :
    (f.delete lib io k).1.calls = f.calls := by
  simp only [FileCache.delete]
  split
  · rfl
  · split
    · rfl
    · split <;> rfl

theorem set_ok (lib : Lib V) (io : Faults) (now : Int) (f : FileCache V) (k : String)
    (x : V) (d : Int) (c : String) (hm : lib.marshal x = some c)
    (hc : io.create (keyToFilename lib k (unixNanoAfter now d)) = false)
    (hw : io.write (keyToFilename lib k (unixNanoAfter now d)) = false) :
    f.set lib io now k x d = .returned
      ⟨f.items.insert k ⟨unixNanoAfter now d, keyToFilename lib k (unixNanoAfter now d)⟩,
       f.files.insert (keyToFilename lib k (unixNanoAfter now d)) c, f.calls⟩ () := by
  simp [FileCache.set, hm, osCreate, writeString, keyToFilename_ne_empty, hc, hw]

theorem set_returned (lib : Lib V) (io : Faults) (now : Int) (f f1 : FileCache V)
    (k : String) (x : V) (d : Int) (h : f.set lib io now k x d = .returned f1 ()) :
    ∃ c, lib.marshal x = some c ∧
      f1 = ⟨f.items.insert k ⟨unixNanoAfter now d, keyToFilename lib k (unixNanoAfter now d)⟩,
        f.files.insert (keyToFilename lib k (unixNanoAfter now d)) c, f.calls⟩ := by
  simp only [FileCache.set, osCreate, writeString] at h
  split at h
  · cases h
  · rename_i files1 hcreate
    split at h
    · cases h
    · rename_i content hm
      split at h
      · cases h
      · rename_i files2 hwrite
        refine ⟨content, hm, ?_⟩
        split at hcreate
        · cases hcreate
        · split at hwrite
          · cases hwrite
          · cases hcreate
            cases hwrite
            cases h
            simp

theorem Set_returned (lib : Lib V) (io : Faults) (now : Int) (f f1 : FileCache V)
    (k : String) (x : V) (d : Int) (h : f.Set lib io now k x d = .returned f1 ()) :
    ∃ c files0, lib.marshal x = some c ∧
      f1 = ⟨f.items.insert k ⟨unixNanoAfter now d, keyToFilename lib k (unixNanoAfter now d)⟩,
        AList.insert (keyToFilename lib k (unixNanoAfter now d)) c files0,
        f.calls ++ [HookEvent.onSet k x]⟩ := by
  simp only [FileCache.Set] at h
  split at h
  · cases h
  · rename_i f0 hrem
    split at h
    · cases h
    · rename_i f2 u hset
      obtain ⟨c, hm, hf2⟩ := set_returned lib io now f0 f2 k x d hset
      refine ⟨c, f0.files, hm, ?_⟩
      cases h
      subst hf2
      split at hrem
      · cases hfiles : osRemove io f.files (f.item k).filename with
        | none => simp [hfiles] at hrem
        | some files1 =>
          simp only [hfiles, Option.map_some', Option.some.injEq] at hrem
          subst hrem
          simp [insert_erase_self]
      · cases hrem
        rfl

theorem delete_returned_ok (lib : Lib V) (io : Faults) (f f1 : FileCache V) (k : String)
    (v : V) (h : f.delete lib io k = (f1, .ok v)) :
    f1 = ⟨f.items.erase k, f.files.erase (f.item k).filename, f.calls⟩ ∧
      ∃ c, f.files.lookup (f.item k).filename = some c ∧ lib.unmarshal c = some v := by
  simp only [FileCache.delete, readFile, osRemove] at h
  split at h
  · cases h
  · rename_i content hread
    split at h
    · cases h
    · rename_i v0 hv0
      split at h
      · cases h
      · rename_i files1 hrem
        split at hread
        · cases hread
        · split at hrem
          · cases hrem
          · split at hrem
            · cases hrem
              cases h
              exact ⟨rfl, content, hread, hv0⟩
            · cases hrem

theorem Add_returned_ok (lib : Lib V) (io : Faults) (now : Int) (f f1 : FileCache V)
    (k : String) (x : V) (d : Int) (b : Bool)
    (h : f.Add lib io now k x d = .returned f1 (b, none)) :
    ∃ c, lib.marshal x = some c ∧ f.Has k = false ∧ b = true ∧
      f1 = ⟨f.items.insert k ⟨unixNanoAfter now d, keyToFilename lib k (unixNanoAfter now d)⟩,
        f.files.insert (keyToFilename lib k (unixNanoAfter now d)) c,
        f.calls ++ [HookEvent.onAdd k x]⟩ := by
  simp only [FileCache.Add, osCreate, writeString] at h
  split at h
  · cases h
  · rename_i hhas
    split at h
    · cases h
    · rename_i content hm
      split at h
      · cases h
      · rename_i files1 hcreate
        split at h
        · cases h
        · rename_i files2 hwrite
          split at hcreate
          · cases hcreate
          · split at hwrite
            · cases hwrite
            · cases hcreate
              cases hwrite
              cases h
              exact ⟨content, hm, by simpa using hhas, rfl, by simp⟩

theorem Add_returned_err (lib : Lib V) (io : Faults) (now : Int) (f f1 : FileCache V)
    (k : String) (x : V) (d : Int) (b : Bool) (e : Err)
    (h : f.Add lib io now k x d = .returned f1 (b, some e)) :
    b = false ∧ f1.items = f.items ∧ f1.calls = f.calls := by
  simp only [FileCache.Add] at h
  split at h
  · cases h
    exact ⟨rfl, rfl, rfl⟩
  · split at h
    · cases h
      exact ⟨rfl, rfl, rfl⟩
    · split at h
      · cases h
        exact ⟨rfl, rfl, rfl⟩
      · split at h
        · cases h
          exact ⟨rfl, rfl, rfl⟩
        · cases h

theorem Add_returns (lib : Lib V) (io : Faults) (now : Int) (f : FileCache V)
    (k : String) (x : V) (d : Int) :
    ∃ f1 r, f.Add lib io now k x d = .returned f1 r := by
  simp only [FileCache.Add]
  split
  · exact ⟨_, _, rfl⟩
  · split
    · exact ⟨_, _, rfl⟩
    · split
      · exact ⟨_, _, rfl⟩
      · split <;> exact ⟨_, _, rfl⟩

theorem Delete_returned_ok (lib : Lib V) (io : Faults) (f f1 : FileCache V) (k : String)
    (r : Option V) (h : f.Delete lib io k = .returned f1 (r, none)) :
    ∃ v, r = some v ∧ f.Has k = true ∧
      f1 = ⟨f.items.erase k, f.files.erase (f.item k).filename,
        f.calls ++ [HookEvent.onDelete k v]⟩ := by
  simp only [FileCache.Delete] at h
  split at h
  · cases h
  · rename_i hhas
    split at h
    · cases h
    · rename_i f0 v hdel
      obtain ⟨hf0, _⟩ := delete_returned_ok lib io f f0 k v hdel
      cases h
      subst hf0
      exact ⟨v, rfl, by simpa using hhas, rfl⟩

theorem Delete_returned_err (lib : Lib V) (io : Faults) (f f1 : FileCache V) (k : String)
    (r : Option V) (e : Err) (h : f.Delete lib io k = .returned f1 (r, some e)) :
    r = none ∧ f1 = f := by
  simp only [FileCache.Delete] at h
  split at h
  · cases h
    exact ⟨rfl, rfl⟩
  · split at h
    · rename_i f0 err hdel
      cases h
      exact ⟨rfl, delete_error lib io f f1 k e hdel⟩
    · cases h

theorem Delete_returns (lib : Lib V) (io : Faults) (f : FileCache V) (k : String) :
    ∃ f1 r, f.Delete lib io k = .returned f1 r := by
  simp only [FileCache.Delete]
  split
  · exact ⟨_, _, rfl⟩
  · split <;> exact ⟨_, _, rfl⟩

theorem Replace_returned_err (lib : Lib V) (io : Faults) (now : Int) (f f1 : FileCache V)
    (k : String) (x : V) (d : Int) (b : Bool) (e : Err)
    (h : f.Replace lib io now k x d = .returned f1 (b, some e)) :
    b = false ∧ f1 = f := by
  simp only [FileCache.Replace] at h
  split at h
  · cases h
    exact ⟨rfl, rfl⟩
  · split at h
    · rename_i f0 err hdel
      cases h
      exact ⟨rfl, delete_error lib io f f1 k e hdel⟩
    · split at h
      · cases h
      · cases h

end Basic

/-! ## Decimal notation of the expiration -/

theorem digitChar_spec : ∀ m, m < 10 →
    (Nat.digitChar m).isDigit = true ∧ (Nat.digitChar m).toNat - 48 = m := by
  decide

theorem toDigitsCore_spec (fuel : Nat) : ∀ n ds, n < fuel →
    ∃ p, Nat.toDigitsCore 10 fuel n ds = p ++ ds ∧ p ≠ [] ∧
      (∀ c ∈ p, c.isDigit = true) ∧
      p.foldl (fun a c => 10 * a + (c.toNat - 48)) 0 = n := by
  induction fuel with
  | zero =>
    intro n ds h
    omega
  | succ fuel ih =>
    intro n ds h
    have hd := digitChar_spec (n % 10) (Nat.mod_lt _ (by decide))
    by_cases h0 : n / 10 = 0
    · refine ⟨[Nat.digitChar (n % 10)], ?_, by simp, ?_, ?_⟩
      · simp [Nat.toDigitsCore, h0]
      · intro c hc
        simp at hc
        rw [hc]
        exact hd.1
      · simp only [List.foldl_cons, List.foldl_nil, hd.2]
        omega
    · obtain ⟨p, hp, _, hdig, hval⟩ := ih (n / 10) (Nat.digitChar (n % 10) :: ds) (by omega)
      refine ⟨p ++ [Nat.digitChar (n % 10)], ?_, by simp, ?_, ?_⟩
      · simp [Nat.toDigitsCore, h0, hp]
      · intro c hc
        rcases List.mem_append.mp hc with hc | hc
        · exact hdig c hc
        · simp at hc
          rw [hc]
          exact hd.1
      · simp only [List.foldl_append, List.foldl_cons, List.foldl_nil, hval, hd.2]
        omega

theorem natRepr_spec (n : Nat) :
    (Nat.repr n).data ≠ [] ∧ (∀ c ∈ (Nat.repr n).data, c.isDigit = true) ∧
      (Nat.repr n).data.foldl (fun a c => 10 * a + (c.toNat - 48)) 0 = n := by
  obtain ⟨p, hp, hne, hdig, hval⟩ := toDigitsCore_spec (n + 1) n [] (by omega)
  have hdata : (Nat.repr n).data = p := by
    simp [Nat.repr, Nat.toDigits, hp, List.asString]
  rw [hdata]
  exact ⟨hne, hdig, hval⟩

theorem natRepr_injective (m n : Nat) (h : Nat.repr m = Nat.repr n) : m = n := by
  have hm := (natRepr_spec m).2.2
  rw [h, (natRepr_spec n).2.2] at hm
  exact hm.symm

theorem intToString_injective (a b : Int) (h : toString a = toString b) : a = b := by
  have hhead : ∀ m n : Nat, Nat.repr m ≠ "-" ++ Nat.repr n := by
    intro m n hmn
    obtain ⟨hne, hdig, _⟩ := natRepr_spec m
    have hdata := congrArg String.data hmn
    simp only [String.data_append] at hdata
    have hmem : '-' ∈ (Nat.repr m).data := by
      rw [hdata]
      simp
    exact absurd (hdig _ hmem) (by decide)
  cases a with
  | ofNat m =>
    cases b with
    | ofNat n =>
      have : Nat.repr m = Nat.repr n := h
      rw [natRepr_injective m n this]
    | negSucc n => exact absurd h (hhead m (n + 1))
  | negSucc m =>
    cases b with
    | ofNat n => exact absurd h.symm (hhead n (m + 1))
    | negSucc n =>
      have h1 : "-" ++ Nat.repr (m + 1) = "-" ++ Nat.repr (n + 1) := h
      have hdata := congrArg String.data h1
      simp only [String.data_append, List.append_cancel_left_eq] at hdata
      have h2 : Nat.repr (m + 1) = Nat.repr (n + 1) := String.ext hdata
      have := natRepr_injective _ _ h2
      have h3 : m = n := by omega
      rw [h3]

theorem intToString_chars (a : Int) :
    ∀ c ∈ (toString a).data, c.isDigit = true ∨ c = '-' := by
  intro c hc
  cases a with
  | ofNat m =>
    have hc' : c ∈ (Nat.repr m).data := hc
    exact Or.inl ((natRepr_spec m).2.1 c hc')
  | negSucc m =>
    have hc' : c ∈ ("-" ++ Nat.repr (m + 1)).data := hc
    simp only [String.data_append, List.mem_append] at hc'
    rcases hc' with hc' | hc'
    · right
      simpa using hc'
    · exact Or.inl ((natRepr_spec (m + 1)).2.1 c hc')

theorem keyToFilename_injective_expired {V : Type} (lib : Lib V) (k : String) (e1 e2 : Int) :
    keyToFilename lib k e1 = keyToFilename lib k e2 ↔ e1 = e2 := by
  constructor
  · intro h
    have hdata := congrArg String.data h
    simp only [keyToFilename, String.data_append, List.append_cancel_left_eq] at hdata
    exact intToString_injective e1 e2 (String.ext hdata)
  · intro h
    rw [h]

/-! ## Facts about the invariant -/

section Invariant
variable {V : Type}

theorem filenames_erase_perm (items : AList (fun _ : String => Item)) (k : String) (it : Item)
    (hit : items.lookup k = some it) :
    (items.entries.map (fun e => e.2.filename)).Perm
      (it.filename :: (items.erase k).entries.map (fun e => e.2.filename)) := by
  have hmem : Sigma.mk k it ∈ items.entries := AList.mem_lookup_iff.mp hit
  have hkeys : k ∈ items.entries.keys := List.mem_keys_of_mem hmem
  obtain ⟨b, l1, l2, _, hsplit, hker⟩ := List.exists_of_kerase hkeys
  have hb : b = it := by
    have hmem2 : Sigma.mk k b ∈ items.entries := by rw [hsplit]; simp
    exact items.nodupKeys.eq_of_mk_mem hmem2 hmem
  subst hb
  have he : (items.erase k).entries = l1 ++ l2 := hker
  rw [he, hsplit]
  simp only [List.map_append, List.map_cons]
  exact List.perm_middle

theorem inv_lookup (lib : Lib V) (f : FileCache V) (hinv : IndexMatchesDir lib f)
    (k : String) (it : Item) (hit : f.items.lookup k = some it) :
    it.filename ≠ "" ∧ ∃ c, f.files.lookup it.filename = some c ∧
      (lib.unmarshal c).isSome = true := by
  have hmem : Sigma.mk k it ∈ f.items.entries := AList.mem_lookup_iff.mp hit
  have h1 : it.filename ∈ f.items.entries.map (fun e => e.2.filename) :=
    List.mem_map.mpr ⟨_, hmem, rfl⟩
  have h2 : it.filename ∈ f.files.keys := hinv.1.mem_iff.mp h1
  have h3 : (f.files.lookup it.filename).isSome = true :=
    AList.lookup_isSome.mpr (AList.mem_keys.mpr h2)
  obtain ⟨c, hc⟩ := Option.isSome_iff_exists.mp h3
  have h4 : (⟨it.filename, c⟩ : Sigma fun _ : String => String) ∈ f.files.entries :=
    AList.mem_lookup_iff.mp hc
  exact ⟨(hinv.2 _ h4).1, c, hc, (hinv.2 _ h4).2⟩

theorem inv_inj (lib : Lib V) (f : FileCache V) (hinv : IndexMatchesDir lib f)
    (k k' : String) (it it' : Item) (hit : f.items.lookup k = some it)
    (hit' : f.items.lookup k' = some it') (hname : it.filename = it'.filename) : k = k' := by
  have hnd : (f.items.entries.map (fun e => e.2.filename)).Nodup :=
    hinv.1.nodup_iff.mpr f.files.keys_nodup
  have h := List.inj_on_of_nodup_map hnd (AList.mem_lookup_iff.mp hit)
    (AList.mem_lookup_iff.mp hit') hname
  exact congrArg Sigma.fst h

theorem inv_owner (lib : Lib V) (f : FileCache V) (hinv : IndexMatchesDir lib f)
    (n : String) (hn : (f.files.lookup n).isSome = true) :
    ∃ k it, f.items.lookup k = some it ∧ it.filename = n := by
  have h1 : n ∈ f.files.keys := AList.mem_keys.mp (AList.lookup_isSome.mp hn)
  have h2 := hinv.1.mem_iff.mpr h1
  obtain ⟨e, he, hfn⟩ := List.mem_map.mp h2
  exact ⟨e.1, e.2, AList.mem_lookup_iff.mpr he, hfn⟩

theorem inv_count (lib : Lib V) (f : FileCache V) (hinv : IndexMatchesDir lib f) :
    f.files.keys.length = f.ItemCount := by
  have h := hinv.1.length_eq
  simp only [List.length_map] at h
  simp only [FileCache.ItemCount, AList.keys, List.keys, List.length_map] at h ⊢
  exact h.symm

theorem inv_erase (lib : Lib V) (f : FileCache V) (hinv : IndexMatchesDir lib f)
    (k : String) (it : Item) (hit : f.items.lookup k = some it) (calls : List (HookEvent V)) :
    IndexMatchesDir lib ⟨f.items.erase k, f.files.erase it.filename, calls⟩ := by
  constructor
  · have h1 := (filenames_erase_perm f.items k it hit).symm.trans hinv.1
    have h2 := h1.erase it.filename
    simp only [List.erase_cons_head] at h2
    simpa [AList.keys_erase] using h2
  · intro e he
    exact hinv.2 e ((List.kerase_sublist _ _).subset he)

theorem inv_insert (lib : Lib V) (f : FileCache V) (hinv : IndexMatchesDir lib f)
    (k : String) (it : Item) (c : String) (calls : List (HookEvent V))
    (hk : f.items.lookup k = none) (hfile : f.files.lookup it.filename = none)
    (hne : it.filename ≠ "") (hc : (lib.unmarshal c).isSome = true) :
    IndexMatchesDir lib ⟨f.items.insert k it, f.files.insert it.filename c, calls⟩ := by
  have hk1 : k ∉ f.items := AList.lookup_eq_none.mp hk
  have hf1 : it.filename ∉ f.files := AList.lookup_eq_none.mp hfile
  constructor
  · simp only [AList.insert_entries_of_neg hk1, AList.keys_insert, List.map_cons]
    rw [List.erase_of_not_mem (fun h => hf1 (AList.mem_keys.mpr h))]
    exact hinv.1.cons _
  · intro e he
    simp only [AList.insert_entries_of_neg hf1, List.mem_cons] at he
    rcases he with rfl | he
    · exact ⟨hne, hc⟩
    · exact hinv.2 e he

theorem Set_spec (lib : Lib V) (now : Int) (f : FileCache V) (k : String) (x : V) (d : Int)
    (c : String) (hinv : IndexMatchesDir lib f) (hm : lib.marshal x = some c)
    (hu : (lib.unmarshal c).isSome = true)
    (hfresh : ∀ k' it, k' ≠ k → f.items.lookup k' = some it →
      it.filename ≠ keyToFilename lib k (unixNanoAfter now d)) :
    ∃ f1, f.Set lib Faults.none now k x d = .returned f1 () ∧ IndexMatchesDir lib f1 ∧
      f1.items = f.items.insert k
        ⟨unixNanoAfter now d, keyToFilename lib k (unixNanoAfter now d)⟩ ∧
      f1.files.lookup (keyToFilename lib k (unixNanoAfter now d)) = some c ∧
      f1.calls = f.calls ++ [HookEvent.onSet k x] := by
  have hne := keyToFilename_ne_empty lib k (unixNanoAfter now d)
  cases hit : f.items.lookup k with
  | none =>
    have hhas : f.Has k = false := by simp [FileCache.Has, hit]
    have hset := set_ok lib Faults.none now f k x d c hm rfl rfl
    have hfile : f.files.lookup (keyToFilename lib k (unixNanoAfter now d)) = none := by
      by_contra hcon
      obtain ⟨k', it', hk', hn'⟩ := inv_owner lib f hinv _ (Option.ne_none_iff_isSome.mp hcon)
      have hkk : k' ≠ k := by
        intro h
        rw [h, hit] at hk'
        cases hk'
      exact hfresh k' it' hkk hk' hn'
    refine ⟨⟨f.items.insert k
        ⟨unixNanoAfter now d, keyToFilename lib k (unixNanoAfter now d)⟩,
      f.files.insert (keyToFilename lib k (unixNanoAfter now d)) c,
      f.calls ++ [HookEvent.onSet k x]⟩, ?_, ?_, rfl, ?_, rfl⟩
    · simp [FileCache.Set, hhas, hset]
    · exact inv_insert lib f hinv k ⟨_, _⟩ c _ hit hfile hne hu
    · simp
  | some it =>
    have hhas : f.Has k = true := by simp [FileCache.Has, hit]
    have hitem : f.item k = it := by simp [FileCache.item, hit]
    obtain ⟨hne0, c0, hc0, _⟩ := inv_lookup lib f hinv k it hit
    have hrem : osRemove Faults.none f.files it.filename = some (f.files.erase it.filename) := by
      simp [osRemove, hne0, hc0, Faults.none]
    have hset := set_ok lib Faults.none now
      (⟨f.items.erase k, f.files.erase it.filename, f.calls⟩ : FileCache V) k x d c hm rfl rfl
    have hinv1 := inv_erase lib f hinv k it hit f.calls
    have hfile : (f.files.erase it.filename).lookup
        (keyToFilename lib k (unixNanoAfter now d)) = none := by
      by_cases hsame : keyToFilename lib k (unixNanoAfter now d) = it.filename
      · rw [hsame]
        exact AList.lookup_erase _ _
      · rw [AList.lookup_erase_ne hsame]
        by_contra hcon
        obtain ⟨k', it', hk', hn'⟩ := inv_owner lib f hinv _ (Option.ne_none_iff_isSome.mp hcon)
        have hkk : k' ≠ k := by
          intro h
          rw [h, hit] at hk'
          cases hk'
          exact hsame hn'.symm
        exact hfresh k' it' hkk hk' hn'
    have hinv2 := inv_insert lib _ hinv1 k
      ⟨unixNanoAfter now d, keyToFilename lib k (unixNanoAfter now d)⟩ c
      (f.calls ++ [HookEvent.onSet k x]) (AList.lookup_erase _ _) hfile hne hu
    rw [insert_erase_self] at hinv2
    refine ⟨⟨f.items.insert k
        ⟨unixNanoAfter now d, keyToFilename lib k (unixNanoAfter now d)⟩,
      (f.files.erase it.filename).insert (keyToFilename lib k (unixNanoAfter now d)) c,
      f.calls ++ [HookEvent.onSet k x]⟩, ?_, hinv2, rfl, ?_, rfl⟩
    · simp [FileCache.Set, hhas, hitem, hrem, hset, insert_erase_self]
    · simp

theorem sweep_step (lib : Lib V) (f : FileCache V) (hinv : IndexMatchesDir lib f)
    (k : String) (it : Item) (hit : f.items.lookup k = some it) :
    ∃ v, f.delete lib Faults.none k
      = (⟨f.items.erase k, f.files.erase it.filename, f.calls⟩, .ok v) := by
  obtain ⟨hne, c, hc, hdec⟩ := inv_lookup lib f hinv k it hit
  obtain ⟨v, hv⟩ := Option.isSome_iff_exists.mp hdec
  exact ⟨v, delete_ok lib Faults.none f k it c v hit hne rfl rfl hc hv⟩

theorem sweep_aux (lib : Lib V) (clock : String → Int) (order : List String) :
    ∀ f : FileCache V, IndexMatchesDir lib f →
    ∃ f1, f.DeleteExpired lib Faults.none clock order = .returned f1 (true, none) ∧
      IndexMatchesDir lib f1 ∧ f1.calls = f.calls ∧
      (∀ k it, f1.items.lookup k = some it → f.items.lookup k = some it) ∧
      (∀ n c, f1.files.lookup n = some c → f.files.lookup n = some c) ∧
      (∀ k it, f.items.lookup k = some it → it.IsExpired (clock k) = false →
        f1.items.lookup k = some it ∧
        f1.files.lookup it.filename = f.files.lookup it.filename) ∧
      (∀ k ∈ order, ∀ it, f.items.lookup k = some it → it.IsExpired (clock k) = true →
        f1.items.lookup k = none) := by
  induction order with
  | nil =>
    intro f hinv
    exact ⟨f, rfl, hinv, rfl, fun _ _ h => h, fun _ _ h => h, fun _ _ h _ => ⟨h, rfl⟩,
      fun _ hk => absurd hk (List.not_mem_nil _)⟩
  | cons k0 rest ih =>
    intro f hinv
    cases hit0 : f.items.lookup k0 with
    | none =>
      obtain ⟨f1, hrun, hinv1, hcalls, hA, hB, hC, hD⟩ := ih f hinv
      refine ⟨f1, ?_, hinv1, hcalls, hA, hB, hC, ?_⟩
      · simp only [FileCache.DeleteExpired, hit0]
        exact hrun
      · intro k hk it hit hx
        rcases List.mem_cons.mp hk with rfl | hk'
        · rw [hit0] at hit
          cases hit
        · exact hD k hk' it hit hx
    | some it0 =>
      cases hx0 : it0.IsExpired (clock k0) with
      | false =>
        obtain ⟨f1, hrun, hinv1, hcalls, hA, hB, hC, hD⟩ := ih f hinv
        refine ⟨f1, ?_, hinv1, hcalls, hA, hB, hC, ?_⟩
        · simp only [FileCache.DeleteExpired, hit0, hx0]
          exact hrun
        · intro k hk it hit hx
          rcases List.mem_cons.mp hk with rfl | hk'
          · rw [hit0] at hit
            cases hit
            rw [hx0] at hx
            cases hx
          · exact hD k hk' it hit hx
      | true =>
        obtain ⟨v, hdel⟩ := sweep_step lib f hinv k0 it0 hit0
        have hinv' := inv_erase lib f hinv k0 it0 hit0 f.calls
        obtain ⟨f1, hrun, hinv1, hcalls, hA, hB, hC, hD⟩ := ih _ hinv'
        have hA' : ∀ k it, f1.items.lookup k = some it → f.items.lookup k = some it := by
          intro k it h
          have h1 := hA k it h
          by_cases hk : k = k0
          · subst hk
            simp at h1
          · simpa [AList.lookup_erase_ne hk] using h1
        refine ⟨f1, ?_, hinv1, hcalls, hA', ?_, ?_, ?_⟩
        · simp only [FileCache.DeleteExpired, hit0, hx0, hdel]
          exact hrun
        · intro n c h
          have h1 := hB n c h
          by_cases hn : n = it0.filename
          · subst hn
            simp at h1
          · simpa [AList.lookup_erase_ne hn] using h1
        · intro k it hit hx
          have hk : k ≠ k0 := by
            intro h
            subst h
            rw [hit0] at hit
            cases hit
            rw [hx0] at hx
            cases hx
          have hn : it.filename ≠ it0.filename := fun h =>
            hk (inv_inj lib f hinv k k0 it it0 hit hit0 h)
          have h1 := hC k it (by simpa [AList.lookup_erase_ne hk] using hit) hx
          refine ⟨h1.1, ?_⟩
          rw [h1.2]
          exact AList.lookup_erase_ne hn
        · intro k hk it hit hx
          by_cases hkk : k = k0
          · subst hkk
            cases h1 : f1.items.lookup k with
            | none => rfl
            | some it1 =>
              have h2 := hA k it1 h1
              simp at h2
          · rcases List.mem_cons.mp hk with rfl | hk'
            · exact absurd rfl hkk
            · exact hD k hk' it (by simpa [AList.lookup_erase_ne hkk] using hit) hx

theorem DeleteExpired_returns (lib : Lib V) (io : Faults) (clock : String → Int) (order : List String) :
    ∀ f : FileCache V, ∃ f1 r, f.DeleteExpired lib io clock order = .returned f1 r := by
  induction order with
  | nil => exact fun f => ⟨f, _, rfl⟩
  | cons k0 rest ih =>
    intro f
    simp only [FileCache.DeleteExpired]
    split
    · exact ih f
    · split
      · split
        · exact ⟨_, _, rfl⟩
        · exact ih _
      · exact ih f

theorem clear_aux (lib : Lib V) (order : List String) :
    ∀ f : FileCache V, IndexMatchesDir lib f →
    ∃ f1, FileCache.clearLoop lib Faults.none f order = (f1, true) ∧
      IndexMatchesDir lib f1 ∧ f1.calls = f.calls ∧
      (∀ k it, f1.items.lookup k = some it → f.items.lookup k = some it) ∧
      (∀ k ∈ order, f1.items.lookup k = none) := by
  induction order with
  | nil =>
    intro f hinv
    exact ⟨f, rfl, hinv, rfl, fun _ _ h => h, fun _ hk => absurd hk (List.not_mem_nil _)⟩
  | cons k0 rest ih =>
    intro f hinv
    cases hit0 : f.items.lookup k0 with
    | none =>
      have hhas : f.Has k0 = false := by simp [FileCache.Has, hit0]
      obtain ⟨f1, hrun, hinv1, hcalls, hA, hD⟩ := ih f hinv
      refine ⟨f1, ?_, hinv1, hcalls, hA, ?_⟩
      · simp [FileCache.clearLoop, hhas, hrun]
      · intro k hk
        rcases List.mem_cons.mp hk with rfl | hk'
        · cases h1 : f1.items.lookup k with
          | none => rfl
          | some it1 =>
            rw [hA k it1 h1] at hit0
            cases hit0
        · exact hD k hk'
    | some it0 =>
      have hhas : f.Has k0 = true := by simp [FileCache.Has, hit0]
      obtain ⟨v, hdel⟩ := sweep_step lib f hinv k0 it0 hit0
      have hinv' := inv_erase lib f hinv k0 it0 hit0 f.calls
      obtain ⟨f1, hrun, hinv1, hcalls, hA, hD⟩ := ih _ hinv'
      have hgone : f1.items.lookup k0 = none := by
        cases h1 : f1.items.lookup k0 with
        | none => rfl
        | some it1 =>
          have h2 := hA k0 it1 h1
          simp at h2
      refine ⟨f1, ?_, hinv1, hcalls, ?_, ?_⟩
      · simp [FileCache.clearLoop, hhas, hdel, hrun]
      · intro k it h
        have h1 := hA k it h
        by_cases hk : k = k0
        · subst hk
          simp at h1
        · simpa [AList.lookup_erase_ne hk] using h1
      · intro k hk
        rcases List.mem_cons.mp hk with rfl | hk'
        · exact hgone
        · exact hD k hk'

theorem delete_fails_after_erase (lib : Lib V) (io : Faults) (f : FileCache V)
    (k k0 n0 : String) (calls : List (HookEvent V)) (hk : k ≠ k0)
    (hfail : ∃ e, (f.delete lib io k).2 = .error e) :
    ∃ e, ((⟨f.items.erase k0, f.files.erase n0, calls⟩ : FileCache V).delete lib io k).2
      = .error e := by
  obtain ⟨e, he⟩ := hfail
  have hitem : (⟨f.items.erase k0, f.files.erase n0, calls⟩ : FileCache V).item k = f.item k := by
    simp [FileCache.item, AList.lookup_erase_ne hk]
  simp only [FileCache.delete, readFile, osRemove] at he ⊢
  rw [hitem]
  generalize (f.item k).filename = n at he ⊢
  by_cases hn : n = n0
  · subst hn
    simp
  · rw [AList.lookup_erase_ne hn]
    split at he
    · exact ⟨_, rfl⟩
    · split at he
      · exact ⟨_, rfl⟩
      · split at he
        · rename_i hrem
          split at hrem
          · rename_i hcond
            simp [hcond]
          · rename_i hcond
            split at hrem
            · cases hrem
            · rename_i hsome
              simp [hcond, hsome]
        · cases he

theorem clear_fails (lib : Lib V) (io : Faults) (order : List String) :
    ∀ f : FileCache V, ∀ k, k ∈ order → f.Has k = true →
      (∃ e, (f.delete lib io k).2 = .error e) →
      (FileCache.clearLoop lib io f order).2 = false := by
  induction order with
  | nil =>
    intro f k hk
    exact absurd hk (List.not_mem_nil _)
  | cons k0 rest ih =>
    intro f k hk hhas hfail
    cases hhas0 : f.Has k0 with
    | false =>
      have hne : k ≠ k0 := by
        intro h
        rw [h, hhas0] at hhas
        cases hhas
      have hk' : k ∈ rest := (List.mem_cons.mp hk).resolve_left hne
      simp only [FileCache.clearLoop, hhas0]
      exact ih f k hk' hhas hfail
    | true =>
      cases hdel : f.delete lib io k0 with
      | mk f' res =>
        cases res with
        | error e =>
          simp [FileCache.clearLoop, hhas0, hdel]
        | ok v =>
          have hne : k ≠ k0 := by
            intro h
            obtain ⟨e, he⟩ := hfail
            rw [h, hdel] at he
            cases he
          have hk' : k ∈ rest := (List.mem_cons.mp hk).resolve_left hne
          obtain ⟨hf', _⟩ := delete_returned_ok lib io f f' k0 v hdel
          subst hf'
          have hhas' : FileCache.Has (⟨f.items.erase k0,
              f.files.erase (f.item k0).filename, f.calls⟩ : FileCache V) k = true := by
            simpa [FileCache.Has, AList.lookup_erase_ne hne] using hhas
          simp only [FileCache.clearLoop, hhas0, hdel]
          exact ih _ k hk' hhas'
            (delete_fails_after_erase lib io f k k0 _ f.calls hne hfail)

theorem sweep_noop (lib : Lib V) (io : Faults) (clock : String → Int) (f : FileCache V)
    (hfresh : ∀ k it, f.items.lookup k = some it → it.IsExpired (clock k) = false)
    (order : List String) :
    f.DeleteExpired lib io clock order = .returned f (true, none) := by
  induction order with
  | nil => rfl
  | cons k0 rest ih =>
    cases hit0 : f.items.lookup k0 with
    | none =>
      simp only [FileCache.DeleteExpired, hit0]
      exact ih
    | some it0 =>
      simp only [FileCache.DeleteExpired, hit0, hfresh k0 it0 hit0]
      exact ih

theorem sweep_success_clean (lib : Lib V) (io : Faults) (clock : String → Int) (order : List String) :
    ∀ f f1 : FileCache V, f.DeleteExpired lib io clock order = .returned f1 (true, none) →
      (∀ k it, f1.items.lookup k = some it → f.items.lookup k = some it) ∧
      (∀ k ∈ order, ∀ it, f1.items.lookup k = some it → it.IsExpired (clock k) = false) := by
  induction order with
  | nil =>
    intro f f1 h
    cases h
    exact ⟨fun _ _ h => h, fun _ hk => absurd hk (List.not_mem_nil _)⟩
  | cons k0 rest ih =>
    intro f f1 h
    cases hit0 : f.items.lookup k0 with
    | none =>
      simp only [FileCache.DeleteExpired, hit0] at h
      obtain ⟨hA, hD⟩ := ih f f1 h
      refine ⟨hA, ?_⟩
      intro k hk it hit
      rcases List.mem_cons.mp hk with rfl | hk'
      · rw [hA k it hit] at hit0
        cases hit0
      · exact hD k hk' it hit
    | some it0 =>
      cases hx0 : it0.IsExpired (clock k0) with
      | false =>
        simp only [FileCache.DeleteExpired, hit0, hx0] at h
        obtain ⟨hA, hD⟩ := ih f f1 h
        refine ⟨hA, ?_⟩
        intro k hk it hit
        rcases List.mem_cons.mp hk with rfl | hk'
        · rw [hA k it hit] at hit0
          cases hit0
          exact hx0
        · exact hD k hk' it hit
      | true =>
        simp only [FileCache.DeleteExpired, hit0, hx0] at h
        cases hdel : f.delete lib io k0 with
        | mk f' res =>
          cases res with
          | error e =>
            simp [hdel] at h
          | ok v =>
            simp only [hdel, if_true] at h
            obtain ⟨hf', _⟩ := delete_returned_ok lib io f f' k0 v hdel
            obtain ⟨hA, hD⟩ := ih f' f1 h
            subst hf'
            have hA' : ∀ k it, f1.items.lookup k = some it → f.items.lookup k = some it := by
              intro k it hit
              have h1 := hA k it hit
              by_cases hk : k = k0
              · subst hk
                simp at h1
              · simpa [AList.lookup_erase_ne hk] using h1
            refine ⟨hA', ?_⟩
            intro k hk it hit
            rcases List.mem_cons.mp hk with rfl | hk'
            · have h1 := hA k it hit
              simp at h1
            · exact hD k hk' it hit

end Invariant

/-! ## Frame of the operations on one key -/

section Frame
variable {V : Type}

theorem FrameOf.refl (f : FileCache V) (k : String) (touched : List String) :
    FrameOf f f k touched :=
  ⟨rfl, fun _ _ => rfl⟩

theorem FrameOf.trans {f g h : FileCache V} {k : String} {t1 t2 t : List String}
    (h1 : FrameOf f g k t1) (h2 : FrameOf g h k t2)
    (ht1 : ∀ n ∈ t1, n ∈ t) (ht2 : ∀ n ∈ t2, n ∈ t) : FrameOf f h k t :=
  ⟨h2.1.trans h1.1, fun n hn =>
    (h2.2 n (fun hm => hn (ht2 n hm))).trans (h1.2 n (fun hm => hn (ht1 n hm)))⟩

theorem FrameOf.calls {f g : FileCache V} {k : String} {t : List String}
    (h : FrameOf f g k t) (calls : List (HookEvent V)) :
    FrameOf f ⟨g.items, g.files, calls⟩ k t := h

theorem delete_frame (lib : Lib V) (io : Faults) (f : FileCache V) (k k' : String)
    (hk : k' ≠ k) :
    FrameOf f (f.delete lib io k).1 k' [(f.item k).filename] := by
  cases hdel : f.delete lib io k with
  | mk g res =>
    cases res with
    | error e =>
      rw [delete_error lib io f g k e hdel]
      exact FrameOf.refl _ _ _
    | ok v =>
      obtain ⟨hg, _⟩ := delete_returned_ok lib io f g k v hdel
      subst hg
      refine ⟨AList.lookup_erase_ne hk, ?_⟩
      intro n hn
      exact AList.lookup_erase_ne (by simpa using hn)

theorem set_frame (lib : Lib V) (io : Faults) (now : Int) (f : FileCache V) (k k' : String)
    (x : V) (d : Int) (hk : k' ≠ k) :
    FrameOf f (f.set lib io now k x d).state k'
      [keyToFilename lib k (unixNanoAfter now d)] := by
  simp only [FileCache.set, osCreate, writeString]
  split
  · exact FrameOf.refl _ _ _
  · rename_i files1 hcreate
    have hfiles1 : files1 = f.files.insert (keyToFilename lib k (unixNanoAfter now d)) "" := by
      split at hcreate
      · cases hcreate
      · cases hcreate
        rfl
    subst hfiles1
    split
    · exact ⟨rfl, fun n hn => AList.lookup_insert_ne (by simpa using hn)⟩
    · split
      · exact ⟨rfl, fun n hn => AList.lookup_insert_ne (by simpa using hn)⟩
      · rename_i files2 hwrite
        split at hwrite
        · cases hwrite
        · cases hwrite
          refine ⟨AList.lookup_insert_ne hk, ?_⟩
          intro n hn
          have hn' : n ≠ keyToFilename lib k (unixNanoAfter now d) := by simpa using hn
          simp [Outcome.state, AList.lookup_insert_ne hn']

theorem Set_frame (lib : Lib V) (io : Faults) (now : Int) (f : FileCache V) (k k' : String)
    (x : V) (d : Int) (hk : k' ≠ k) :
    FrameOf f (f.Set lib io now k x d).state k'
      [(f.item k).filename, keyToFilename lib k (unixNanoAfter now d)] := by
  have hinner : ∀ f1 : FileCache V, FrameOf f f1 k'
      [(f.item k).filename, keyToFilename lib k (unixNanoAfter now d)] →
      FrameOf f (match f1.set lib io now k x d with
        | .panicked f2 => (Outcome.panicked f2 : Outcome V Unit)
        | .returned f2 _ =>
          .returned { f2 with calls := f2.calls ++ [HookEvent.onSet k x] } ()).state k'
        [(f.item k).filename, keyToFilename lib k (unixNanoAfter now d)] := by
    intro f1 h1
    have h2 := set_frame lib io now f1 k k' x d hk
    have h3 := FrameOf.trans h1 h2 (fun n hn => hn) (fun n hn => by simp at hn; simp [hn])
    cases hset : f1.set lib io now k x d with
    | panicked f2 =>
      rw [hset] at h3
      exact h3
    | returned f2 u =>
      rw [hset] at h3
      exact h3
  simp only [FileCache.Set]
  cases hhas : f.Has k with
  | false =>
    simp only [Bool.false_eq_true, if_false]
    exact hinner f (FrameOf.refl _ _ _)
  | true =>
    simp only [if_true]
    cases hrem : osRemove io f.files (f.item k).filename with
    | none => exact FrameOf.refl _ _ _
    | some files1 =>
      have hfiles1 : files1 = f.files.erase (f.item k).filename := by
        simp only [osRemove] at hrem
        split at hrem
        · cases hrem
        · split at hrem
          · cases hrem
            rfl
          · cases hrem
      subst hfiles1
      simp only [Option.map_some']
      apply hinner
      refine ⟨AList.lookup_erase_ne hk, ?_⟩
      intro n hn
      have hn' : n ≠ (f.item k).filename := fun h => hn (by simp [h])
      exact AList.lookup_erase_ne hn'

theorem Add_frame (lib : Lib V) (io : Faults) (now : Int) (f : FileCache V) (k k' : String)
    (x : V) (d : Int) (hk : k' ≠ k) :
    FrameOf f (f.Add lib io now k x d).state k'
      [keyToFilename lib k (unixNanoAfter now d)] := by
  simp only [FileCache.Add, osCreate, writeString]
  split
  · exact FrameOf.refl _ _ _
  · split
    · exact FrameOf.refl _ _ _
    · split
      · exact FrameOf.refl _ _ _
      · rename_i files1 hcreate
        have hfiles1 : files1
            = f.files.insert (keyToFilename lib k (unixNanoAfter now d)) "" := by
          split at hcreate
          · cases hcreate
          · cases hcreate
            rfl
        subst hfiles1
        split
        · exact ⟨rfl, fun n hn => AList.lookup_insert_ne (by simpa using hn)⟩
        · rename_i files2 hwrite
          split at hwrite
          · cases hwrite
          · cases hwrite
            refine ⟨AList.lookup_insert_ne hk, ?_⟩
            intro n hn
            have hn' : n ≠ keyToFilename lib k (unixNanoAfter now d) := by simpa using hn
            simp [Outcome.state, AList.lookup_insert_ne hn']

theorem Delete_frame (lib : Lib V) (io : Faults) (f : FileCache V) (k k' : String)
    (hk : k' ≠ k) :
    FrameOf f (f.Delete lib io k).state k' [(f.item k).filename] := by
  have h := delete_frame lib io f k k' hk
  simp only [FileCache.Delete]
  split
  · exact FrameOf.refl _ _ _
  · cases hdel : f.delete lib io k with
    | mk g res =>
      rw [hdel] at h
      cases res <;> exact h

theorem Get_frame (lib : Lib V) (io : Faults) (now : Int) (f : FileCache V) (k k' : String)
    (hk : k' ≠ k) :
    FrameOf f (f.Get lib io now k).state k' [(f.item k).filename] := by
  have h := delete_frame lib io f k k' hk
  simp only [FileCache.Get]
  split
  · exact FrameOf.refl _ _ _
  · split
    · exact h
    · split
      · exact FrameOf.refl _ _ _
      · split <;> exact FrameOf.refl _ _ _

theorem Replace_frame (lib : Lib V) (io : Faults) (now : Int) (f : FileCache V)
    (k k' : String) (x : V) (d : Int) (hk : k' ≠ k) :
    FrameOf f (f.Replace lib io now k x d).state k'
      [(f.item k).filename, keyToFilename lib k (unixNanoAfter now d)] := by
  have h := delete_frame lib io f k k' hk
  simp only [FileCache.Replace]
  split
  · exact FrameOf.refl _ _ _
  · cases hdel : f.delete lib io k with
    | mk g res =>
      rw [hdel] at h
      cases res with
      | error e =>
        exact ⟨h.1, fun n hn => h.2 n (fun hm => hn (by simp at hm; simp [hm]))⟩
      | ok v =>
        have h2 := set_frame lib io now g k k' x d hk
        have h3 : FrameOf f (g.set lib io now k x d).state k'
            [(f.item k).filename, keyToFilename lib k (unixNanoAfter now d)] :=
          FrameOf.trans h h2 (fun n hn => by simp at hn; simp [hn])
            (fun n hn => by simp at hn; simp [hn])
        simp only
        cases hset : g.set lib io now k x d with
        | panicked f2 =>
          rw [hset] at h3
          exact h3
        | returned f2 u =>
          rw [hset] at h3
          exact h3

theorem Get_result_congr (lib : Lib V) (io : Faults) (now : Int) (f g : FileCache V)
    (k : String) (hitems : g.items.lookup k = f.items.lookup k)
    (hfiles : g.files.lookup (f.item k).filename = f.files.lookup (f.item k).filename) :
    (g.Get lib io now k).result = (f.Get lib io now k).result := by
  have hitem : g.item k = f.item k := by simp [FileCache.item, hitems]
  have hhas : g.Has k = f.Has k := by simp [FileCache.Has, hitems]
  have hread : readFile io g.files (f.item k).filename
      = readFile io f.files (f.item k).filename := by
    simp only [readFile, hfiles]
  simp only [FileCache.Get, hhas, hitem, hread]
  split
  · rfl
  · split
    · rfl
    · split
      · rfl
      · split <;> rfl

end Frame

/-! ## Entries stay backed by their artifacts -/

section Reachable
variable {V : Type}

theorem backed_other_name (lib : Lib V) (keys : List String) (f : FileCache V)
    (hb : EntriesBacked lib keys f) (hcol : NoCollision lib keys)
    (k k1 : String) (it1 : Item) (h1 : f.items.lookup k1 = some it1) (hne : k1 ≠ k) :
    it1.filename ≠ (f.item k).filename ∧
      (k ∈ keys → ∀ e, it1.filename ≠ keyToFilename lib k e) := by
  obtain ⟨hK1, hname1, _⟩ := hb k1 it1 h1
  constructor
  · cases hit : f.items.lookup k with
    | none =>
      simp only [FileCache.item, hit, Option.getD_none, Item.zero]
      rw [hname1]
      exact keyToFilename_ne_empty _ _ _
    | some it =>
      obtain ⟨hK, hname, _⟩ := hb k it hit
      simp only [FileCache.item, hit, Option.getD_some]
      rw [hname1, hname]
      exact hcol k1 hK1 k hK hne _ _
  · intro hK e
    rw [hname1]
    exact hcol k1 hK1 k hK hne _ _

theorem backed_of_frame (lib : Lib V) (keys : List String) (f g : FileCache V)
    (hb : EntriesBacked lib keys f) (hcol : NoCollision lib keys) (k : String)
    (touched : List String)
    (hframe : ∀ k1, k1 ≠ k → FrameOf f g k1 touched)
    (htouched : ∀ n ∈ touched, n = (f.item k).filename ∨ ∃ e, k ∈ keys ∧ n = keyToFilename lib k e)
    (hself : ∀ it, g.items.lookup k = some it →
      k ∈ keys ∧ it.filename = keyToFilename lib k it.expiration ∧
      ∃ c, g.files.lookup it.filename = some c ∧ (lib.unmarshal c).isSome = true) :
    EntriesBacked lib keys g := by
  intro k1 it1 h1
  by_cases hk : k1 = k
  · subst hk
    exact hself it1 h1
  · have hfr := hframe k1 hk
    rw [hfr.1] at h1
    obtain ⟨hK1, hname1, c, hc, hdec⟩ := hb k1 it1 h1
    have hnames := backed_other_name lib keys f hb hcol k k1 it1 h1 hk
    refine ⟨hK1, hname1, c, ?_, hdec⟩
    rw [hfr.2 it1.filename, hc]
    intro hmem
    rcases htouched _ hmem with h | ⟨e, hK, h⟩
    · exact hnames.1 h
    · exact hnames.2 hK e h

theorem backed_delete (lib : Lib V) (keys : List String) (io : Faults) (f : FileCache V)
    (hb : EntriesBacked lib keys f) (hcol : NoCollision lib keys) (k : String) :
    EntriesBacked lib keys (f.delete lib io k).1 := by
  apply backed_of_frame lib keys f _ hb hcol k [(f.item k).filename]
    (fun k1 hk => delete_frame lib io f k k1 hk)
  · intro n hn
    left
    simpa using hn
  · intro it hit
    cases hdel : f.delete lib io k with
    | mk g res =>
      rw [hdel] at hit
      cases res with
      | error e =>
        rw [delete_error lib io f g k e hdel] at hit ⊢
        exact hb k it hit
      | ok v =>
        obtain ⟨hg, _⟩ := delete_returned_ok lib io f g k v hdel
        subst hg
        simp at hit

theorem set_state_cases (lib : Lib V) (io : Faults) (now : Int) (f : FileCache V)
    (k : String) (x : V) (d : Int) :
    (f.set lib io now k x d).state.items = f.items ∨
    ∃ c, lib.marshal x = some c ∧ (f.set lib io now k x d).state
      = ⟨f.items.insert k ⟨unixNanoAfter now d, keyToFilename lib k (unixNanoAfter now d)⟩,
        f.files.insert (keyToFilename lib k (unixNanoAfter now d)) c, f.calls⟩ := by
  cases hset : f.set lib io now k x d with
  | returned g u =>
    right
    obtain ⟨c, hm, hg⟩ := set_returned lib io now f g k x d hset
    exact ⟨c, hm, hg⟩
  | panicked g =>
    left
    simp only [FileCache.set] at hset
    split at hset
    · cases hset
      rfl
    · split at hset
      · cases hset
        rfl
      · split at hset
        · cases hset
          rfl
        · cases hset

theorem backed_set (lib : Lib V) (keys : List String) (io : Faults) (now : Int)
    (f : FileCache V) (hb : EntriesBacked lib keys f) (hcol : NoCollision lib keys)
    (hdec : ∀ x c, lib.marshal x = some c → (lib.unmarshal c).isSome = true)
    (k : String) (x : V) (d : Int) (hK : k ∈ keys) (habs : f.items.lookup k = none) :
    EntriesBacked lib keys (f.set lib io now k x d).state := by
  apply backed_of_frame lib keys f _ hb hcol k [keyToFilename lib k (unixNanoAfter now d)]
    (fun k1 hk => set_frame lib io now f k k1 x d hk)
  · intro n hn
    right
    exact ⟨_, hK, by simpa using hn⟩
  · intro it hit
    rcases set_state_cases lib io now f k x d with h | ⟨c, hm, h⟩
    · rw [h, habs] at hit
      cases hit
    · rw [h] at hit ⊢
      simp only [AList.lookup_insert, Option.some.injEq] at hit
      subst hit
      exact ⟨hK, rfl, c, AList.lookup_insert _, hdec x c hm⟩

theorem backed_erase (lib : Lib V) (keys : List String) (f : FileCache V)
    (hb : EntriesBacked lib keys f) (hcol : NoCollision lib keys) (k : String)
    (calls : List (HookEvent V)) :
    EntriesBacked lib keys ⟨f.items.erase k, f.files.erase (f.item k).filename, calls⟩ := by
  apply backed_of_frame lib keys f _ hb hcol k [(f.item k).filename]
  · intro k1 hk
    exact ⟨AList.lookup_erase_ne hk, fun n hn => AList.lookup_erase_ne (by simpa using hn)⟩
  · intro n hn
    left
    simpa using hn
  · intro it hit
    simp at hit

theorem backed_set_wrapped (lib : Lib V) (keys : List String) (io : Faults) (now : Int)
    (f : FileCache V) (hb : EntriesBacked lib keys f) (hcol : NoCollision lib keys)
    (hdec : ∀ x c, lib.marshal x = some c → (lib.unmarshal c).isSome = true)
    (k : String) (x : V) (d : Int) (hK : k ∈ keys) (habs : f.items.lookup k = none)
    (α : Type) (r : α) (calls : FileCache V → List (HookEvent V)) :
    EntriesBacked lib keys
      (match f.set lib io now k x d with
        | .panicked f2 => (Outcome.panicked f2 : Outcome V α)
        | .returned f2 _ => .returned ⟨f2.items, f2.files, calls f2⟩ r).state := by
  have h := backed_set lib keys io now f hb hcol hdec k x d hK habs
  cases hset : f.set lib io now k x d with
  | panicked f2 =>
    rw [hset] at h
    exact h
  | returned f2 u =>
    rw [hset] at h
    exact h

theorem backed_Set (lib : Lib V) (keys : List String) (io : Faults) (now : Int)
    (f : FileCache V) (hb : EntriesBacked lib keys f) (hcol : NoCollision lib keys)
    (hdec : ∀ x c, lib.marshal x = some c → (lib.unmarshal c).isSome = true)
    (k : String) (x : V) (d : Int) (hK : k ∈ keys) :
    EntriesBacked lib keys (f.Set lib io now k x d).state := by
  simp only [FileCache.Set]
  cases hhas : f.Has k with
  | false =>
    have habs : f.items.lookup k = none := by
      simpa [FileCache.Has] using hhas
    simp only [Bool.false_eq_true, if_false]
    exact backed_set_wrapped lib keys io now f hb hcol hdec k x d hK habs Unit ()
      (fun f2 => f2.calls ++ [HookEvent.onSet k x])
  | true =>
    simp only [if_true]
    cases hrem : osRemove io f.files (f.item k).filename with
    | none => exact hb
    | some files1 =>
      have hfiles1 : files1 = f.files.erase (f.item k).filename := by
        simp only [osRemove] at hrem
        split at hrem
        · cases hrem
        · split at hrem
          · cases hrem
            rfl
          · cases hrem
      subst hfiles1
      simp only [Option.map_some']
      exact backed_set_wrapped lib keys io now _ (backed_erase lib keys f hb hcol k f.calls)
        hcol hdec k x d hK (AList.lookup_erase _ _) Unit ()
        (fun f2 => f2.calls ++ [HookEvent.onSet k x])

theorem backed_Add (lib : Lib V) (keys : List String) (io : Faults) (now : Int)
    (f : FileCache V) (hb : EntriesBacked lib keys f) (hcol : NoCollision lib keys)
    (hdec : ∀ x c, lib.marshal x = some c → (lib.unmarshal c).isSome = true)
    (k : String) (x : V) (d : Int) (hK : k ∈ keys) :
    EntriesBacked lib keys (f.Add lib io now k x d).state := by
  cases hhas : f.Has k with
  | true =>
    have h : f.Add lib io now k x d = .returned f (false, some Err.existed) := by
      simp [FileCache.Add, hhas]
    rw [h]
    exact hb
  | false =>
    have habs : f.items.lookup k = none := by
      simpa [FileCache.Has] using hhas
    apply backed_of_frame lib keys f _ hb hcol k [keyToFilename lib k (unixNanoAfter now d)]
      (fun k1 hk => Add_frame lib io now f k k1 x d hk)
    · intro n hn
      right
      exact ⟨_, hK, by simpa using hn⟩
    · intro it hit
      obtain ⟨f1, r, hret⟩ := Add_returns lib io now f k x d
      rw [hret] at hit ⊢
      obtain ⟨b, oe⟩ := r
      cases oe with
      | some e =>
        have h := (Add_returned_err lib io now f f1 k x d b e hret).2.1
        simp only [Outcome.state] at hit
        rw [h, habs] at hit
        cases hit
      | none =>
        obtain ⟨c, hm, _, _, hf1⟩ := Add_returned_ok lib io now f f1 k x d b hret
        subst hf1
        simp only [Outcome.state, AList.lookup_insert, Option.some.injEq] at hit
        subst hit
        exact ⟨hK, rfl, c, AList.lookup_insert _, hdec x c hm⟩

theorem backed_Get (lib : Lib V) (keys : List String) (io : Faults) (now : Int)
    (f : FileCache V) (hb : EntriesBacked lib keys f) (hcol : NoCollision lib keys)
    (k : String) : EntriesBacked lib keys (f.Get lib io now k).state := by
  simp only [FileCache.Get]
  split
  · exact hb
  · split
    · exact backed_delete lib keys io f hb hcol k
    · split
      · exact hb
      · split <;> exact hb

theorem backed_Delete (lib : Lib V) (keys : List String) (io : Faults)
    (f : FileCache V) (hb : EntriesBacked lib keys f) (hcol : NoCollision lib keys)
    (k : String) : EntriesBacked lib keys (f.Delete lib io k).state := by
  have h := backed_delete lib keys io f hb hcol k
  simp only [FileCache.Delete]
  split
  · exact hb
  · cases hdel : f.delete lib io k with
    | mk g res =>
      rw [hdel] at h
      cases res <;> exact h

theorem backed_Replace (lib : Lib V) (keys : List String) (io : Faults) (now : Int)
    (f : FileCache V) (hb : EntriesBacked lib keys f) (hcol : NoCollision lib keys)
    (hdec : ∀ x c, lib.marshal x = some c → (lib.unmarshal c).isSome = true)
    (k : String) (x : V) (d : Int) (hK : k ∈ keys) :
    EntriesBacked lib keys (f.Replace lib io now k x d).state := by
  have h := backed_delete lib keys io f hb hcol k
  simp only [FileCache.Replace]
  split
  · exact hb
  · cases hdel : f.delete lib io k with
    | mk g res =>
      rw [hdel] at h
      cases res with
      | error e => exact h
      | ok v =>
        obtain ⟨hg, _⟩ := delete_returned_ok lib io f g k v hdel
        have habs : g.items.lookup k = none := by
          rw [hg]
          exact AList.lookup_erase _ _
        exact backed_set_wrapped lib keys io now g h hcol hdec k x d hK habs
          (Bool × Option Err) (true, none)
          (fun f2 => f2.calls ++ [HookEvent.onReplace k v x])

theorem backed_clearLoop (lib : Lib V) (keys : List String) (io : Faults)
    (hcol : NoCollision lib keys) (order : List String) :
    ∀ f : FileCache V, EntriesBacked lib keys f →
      EntriesBacked lib keys (FileCache.clearLoop lib io f order).1 := by
  induction order with
  | nil => exact fun f hb => hb
  | cons k0 rest ih =>
    intro f hb
    have h := backed_delete lib keys io f hb hcol k0
    simp only [FileCache.clearLoop]
    split
    · cases hdel : f.delete lib io k0 with
      | mk g res =>
        rw [hdel] at h
        cases res with
        | error e => exact h
        | ok v => exact ih g h
    · exact ih f hb

theorem backed_Clear (lib : Lib V) (keys : List String) (io : Faults)
    (f : FileCache V) (hb : EntriesBacked lib keys f) (hcol : NoCollision lib keys)
    (order : List String) : EntriesBacked lib keys (f.Clear lib io order).state := by
  have h := backed_clearLoop lib keys io hcol order f hb
  simp only [FileCache.Clear]
  cases hloop : FileCache.clearLoop lib io f order with
  | mk g b =>
    rw [hloop] at h
    cases b with
    | false => exact h
    | true =>
      intro k it hit
      simp [Outcome.state] at hit

theorem backed_DeleteExpired (lib : Lib V) (keys : List String) (io : Faults) (clock : String → Int)
    (hcol : NoCollision lib keys) (order : List String) :
    ∀ f : FileCache V, EntriesBacked lib keys f →
      EntriesBacked lib keys (f.DeleteExpired lib io clock order).state := by
  induction order with
  | nil => exact fun f hb => hb
  | cons k0 rest ih =>
    intro f hb
    have h := backed_delete lib keys io f hb hcol k0
    simp only [FileCache.DeleteExpired]
    split
    · exact ih f hb
    · split
      · cases hdel : f.delete lib io k0 with
        | mk g res =>
          rw [hdel] at h
          cases res with
          | error e => exact h
          | ok v => exact ih g h
      · exact ih f hb

theorem backed_call (lib : Lib V) (keys : List String) (io : Faults) (now : Int)
    (f : FileCache V) (hb : EntriesBacked lib keys f) (hcol : NoCollision lib keys)
    (hdec : ∀ x c, lib.marshal x = some c → (lib.unmarshal c).isSome = true)
    (c : Call V) (hK : ∀ k ∈ c.keys, k ∈ keys) :
    EntriesBacked lib keys (f.call lib io now c) := by
  cases c with
  | Set k x d => exact backed_Set lib keys io now f hb hcol hdec k x d (hK k (by simp [Call.keys]))
  | Add k x d => exact backed_Add lib keys io now f hb hcol hdec k x d (hK k (by simp [Call.keys]))
  | Get k => exact backed_Get lib keys io now f hb hcol k
  | Replace k x d =>
    exact backed_Replace lib keys io now f hb hcol hdec k x d (hK k (by simp [Call.keys]))
  | Delete k => exact backed_Delete lib keys io f hb hcol k
  | Clear order => exact backed_Clear lib keys io f hb hcol order
  | DeleteExpired order clock => exact backed_DeleteExpired lib keys io clock hcol order f hb

theorem backed_run (lib : Lib V) (keys : List String) (hcol : NoCollision lib keys)
    (hdec : ∀ x c, lib.marshal x = some c → (lib.unmarshal c).isSome = true)
    (steps : List (Faults × Int × Call V)) :
    ∀ f : FileCache V, EntriesBacked lib keys f → (∀ k ∈ usedKeys steps, k ∈ keys) →
      EntriesBacked lib keys (f.run lib steps) := by
  induction steps with
  | nil => exact fun f hb _ => hb
  | cons s rest ih =>
    intro f hb hK
    obtain ⟨io, now, c⟩ := s
    simp only [FileCache.run]
    apply ih
    · exact backed_call lib keys io now f hb hcol hdec c
        (fun k hk => hK k (by simp [usedKeys, hk]))
    · intro k hk
      exact hK k (by simp [usedKeys, hk])

theorem usedKeys_take (steps : List (Faults × Int × Call V)) :
    ∀ n k, k ∈ usedKeys (steps.take n) → k ∈ usedKeys steps := by
  induction steps with
  | nil =>
    intro n k hk
    simpa using hk
  | cons s rest ih =>
    intro n k hk
    obtain ⟨io, now, c⟩ := s
    cases n with
    | zero => simp [usedKeys] at hk
    | succ n =>
      simp only [List.take_succ_cons, usedKeys, List.mem_append] at hk ⊢
      rcases hk with hk | hk
      · exact Or.inl hk
      · exact Or.inr (ih n k hk)

end Reachable

/-! ## The panicking helper inside `Replace` -/

section ReplacePanic
variable {V : Type}

theorem Replace_panics_of_unencodable (lib : Lib V) (now : Int) (f : FileCache V)
    (k : String) (it : Item) (c0 : String) (o x : V) (d : Int)
    (hit : f.items.lookup k = some it) (hne : it.filename ≠ "")
    (hfile : f.files.lookup it.filename = some c0) (hu0 : lib.unmarshal c0 = some o)
    (hm : lib.marshal x = none) :
    f.Replace lib Faults.none now k x d = .panicked
      ⟨f.items.erase k,
       (f.files.erase it.filename).insert (keyToFilename lib k (unixNanoAfter now d)) "",
       f.calls⟩ := by
  have hhas : f.Has k = true := by simp [FileCache.Has, hit]
  have hdel := delete_ok lib Faults.none f k it c0 o hit hne rfl rfl hfile hu0
  have hset : FileCache.set lib Faults.none now
      (⟨f.items.erase k, f.files.erase it.filename, f.calls⟩ : FileCache V) k x d
      = .panicked ⟨f.items.erase k,
          (f.files.erase it.filename).insert (keyToFilename lib k (unixNanoAfter now d)) "",
          f.calls⟩ := by
    simp [FileCache.set, osCreate, keyToFilename_ne_empty, Faults.none, hm]
  simp [FileCache.Replace, hhas, hdel, hset]

theorem Set_panics_of_unencodable (lib : Lib V) (now : Int) (f : FileCache V)
    (k : String) (it : Item) (c0 : String) (x : V) (d : Int)
    (hit : f.items.lookup k = some it) (hne : it.filename ≠ "")
    (hfile : f.files.lookup it.filename = some c0) (hm : lib.marshal x = none) :
    f.Set lib Faults.none now k x d = .panicked
      ⟨f.items.erase k,
       (f.files.erase it.filename).insert (keyToFilename lib k (unixNanoAfter now d)) "",
       f.calls⟩ := by
  have hhas : f.Has k = true := by simp [FileCache.Has, hit]
  have hitem : f.item k = it := by simp [FileCache.item, hit]
  have hrem : osRemove Faults.none f.files it.filename = some (f.files.erase it.filename) := by
    simp [osRemove, hne, hfile, Faults.none]
  have hset : FileCache.set lib Faults.none now
      (⟨f.items.erase k, f.files.erase it.filename, f.calls⟩ : FileCache V) k x d
      = .panicked ⟨f.items.erase k,
          (f.files.erase it.filename).insert (keyToFilename lib k (unixNanoAfter now d)) "",
          f.calls⟩ := by
    simp [FileCache.set, osCreate, keyToFilename_ne_empty, Faults.none, hm]
  simp [FileCache.Set, hhas, hitem, hrem, hset]

theorem Add_of_unencodable (lib : Lib V) (io : Faults) (now : Int) (f : FileCache V)
    (k : String) (x : V) (d : Int) (hm : lib.marshal x = none) :
    ∃ e, f.Add lib io now k x d = .returned f (false, some e) := by
  cases hhas : f.Has k with
  | true => exact ⟨Err.existed, by simp [FileCache.Add, hhas]⟩
  | false => exact ⟨Err.marshalFailed, by simp [FileCache.Add, hhas, hm]⟩

theorem write_records (lib : Lib V) (io : Faults) (now : Int) (f f1 : FileCache V)
    (k : String) (x : V) (d : Int)
    (hw : f.Set lib io now k x d = .returned f1 () ∨
      f.Add lib io now k x d = .returned f1 (true, none) ∨
      f.Replace lib io now k x d = .returned f1 (true, none)) :
    f1.items.lookup k
      = some ⟨unixNanoAfter now d, keyToFilename lib k (unixNanoAfter now d)⟩ := by
  rcases hw with h | h | h
  · obtain ⟨c, files0, _, hf1⟩ := Set_returned lib io now f f1 k x d h
    rw [hf1]
    exact AList.lookup_insert _
  · obtain ⟨c, _, _, _, hf1⟩ := Add_returned_ok lib io now f f1 k x d true h
    rw [hf1]
    exact AList.lookup_insert _
  · simp only [FileCache.Replace] at h
    split at h
    · cases h
    · split at h
      · cases h
      · rename_i g oldV hdel
        split at h
        · cases h
        · rename_i f2 u hset
          obtain ⟨c, _, hf2⟩ := set_returned lib io now g f2 k x d hset
          cases h
          rw [hf2]
          exact AList.lookup_insert _

theorem Replace_steps_not_write_locked (lib : Lib V) (io : Faults) (now : Int)
    (f g : FileCache V) (k : String) (x v : V) (d : Int)
    (hhas : f.Has k = true) (hdel : f.delete lib io k = (g, .ok v)) :
    writeLockedMutations Held.nothing (f.ReplaceSteps lib io now k x d) = false := by
  simp [FileCache.ReplaceSteps, FileCache.HasSteps, FileCache.deleteSteps, hhas, hdel,
    writeLockedMutations, Held.step, LockStep.isMutation]

theorem Get_steps_not_write_locked (lib : Lib V) (io : Faults) (now : Int)
    (f g : FileCache V) (k : String) (v : V)
    (hhas : f.Has k = true) (hx : (f.item k).IsExpired now = true)
    (hdel : f.delete lib io k = (g, .ok v)) :
    writeLockedMutations Held.nothing (f.GetSteps lib io now k) = false := by
  simp [FileCache.GetSteps, FileCache.HasSteps, FileCache.deleteSteps, hhas, hx, hdel,
    writeLockedMutations, Held.step, LockStep.isMutation]

end ReplacePanic

/-! ## Facts about the concrete instances -/

theorem demoLib_decodes : ∀ x c, demoLib.marshal x = some c →
    (demoLib.unmarshal c).isSome = true := by
  have hnat : ∀ n : Nat, (demoLib.unmarshal (Nat.repr n)).isSome = true := by
    intro n
    obtain ⟨hne, hdig, _⟩ := natRepr_spec n
    simp only [demoLib, readDigits, Option.isSome_map']
    rw [if_pos ⟨hne, List.all_eq_true.mpr hdig⟩]
    rfl
  intro x c hm
  cases x with
  | chan => cases hm
  | num n =>
    have hc : c = Nat.repr n := by
      simp only [demoLib, Option.some.injEq] at hm
      exact hm.symm
    rw [hc]
    exact hnat n
  | int n =>
    have hc : c = Nat.repr n := by
      simp only [demoLib, Option.some.injEq] at hm
      exact hm.symm
    rw [hc]
    exact hnat n

theorem demoSteps_noCollision : NoCollision demoLib (usedKeys demoSteps) := by
  have hab : ∀ e e', keyToFilename demoLib "a" e ≠ keyToFilename demoLib "b" e' := by
    intro e e' h
    have h2 := congrArg (fun s => s.data.head?) h
    simp [keyToFilename, demoLib] at h2
  intro k hk k' hk' hne e e' h
  have hk1 : k = "a" ∨ k = "b" := by
    simp only [usedKeys, demoSteps, Call.keys, List.mem_append, List.mem_singleton,
      List.not_mem_nil, or_false, List.append_nil] at hk
    tauto
  have hk2 : k' = "a" ∨ k' = "b" := by
    simp only [usedKeys, demoSteps, Call.keys, List.mem_append, List.mem_singleton,
      List.not_mem_nil, or_false, List.append_nil] at hk'
    tauto
  rcases hk1 with rfl | rfl <;> rcases hk2 with rfl | rfl
  · exact hne rfl
  · exact hab e e' h
  · exact hab e' e h.symm
  · exact hne rfl

theorem demoPair_distinct_digests :
    ∀ e, keyToFilename demoLib "a" e ≠ keyToFilename demoLib "b" (t0 + 1 + hour) := by
  intro e h
  have h2 := congrArg (fun s => s.data.head?) h
  simp [keyToFilename, demoLib] at h2

theorem demoOther_fresh : ∀ k' it, k' ≠ "a" → demoOther.items.lookup k' = some it →
    ∀ e, it.filename ≠ keyToFilename demoLib "a" e := by
  intro k' it _ hit e h
  have hmem : Sigma.mk k' it ∈
      [(⟨"b", ⟨t0 + hour, keyToFilename demoLib "b" (t0 + hour)⟩⟩ :
        Sigma fun _ : String => Item)] :=
    AList.mem_lookup_iff.mp hit
  simp only [List.mem_singleton, Sigma.mk.inj_iff, heq_eq_eq] at hmem
  obtain ⟨_, rfl⟩ := hmem
  have h2 := congrArg (fun s => s.data.head?) h
  simp [keyToFilename, demoLib] at h2

/-! ## Claims -/

section Claims
variable {V : Type}

/-- Counterexample to C1: `Add("t", 42, math.MaxInt64)` on a new cache
at `t0` returns `(true, nil)`, the ttl has not elapsed at `t0`, and the `Get`
at `t0` returns `(nil, false)`: the expiration `t0 + math.MaxInt64` does not
fit an `int64` and `UnixNano` wraps it to a past instant. -/
theorem add_overflowing_ttl_misses :
    (New DemoValue).Add demoLib Faults.none t0 "t" (.int 42) maxDuration
        = .returned demoForever (true, none) ∧
      t0 ≤ t0 + maxDuration ∧
      (demoForever.Get demoLib Faults.none t0 "t").result = some (none, false) :=
  ⟨rfl, by decide, by decide⟩

/-- C1, amended: adding an absent key with a value that serializes
returns `(true, nil)`, for every ttl; when the expiration instant `now + d`
does not exceed the `int64` range of `UnixNano`, a `Get` no later than
`now + d` returns the decoding of the encoding of the value. -/
theorem add_then_get_roundtrip (lib : Lib V) (io io' : Faults) (now now' : Int)
    (f : FileCache V) (k : String) (v v' : V) (c : String) (d : Int)
    (hk : f.Has k = false)
    (hm : lib.marshal v = some c) (hu : lib.unmarshal c = some v')
    (hc : io.create (keyToFilename lib k (unixNanoAfter now d)) = false)
    (hw : io.write (keyToFilename lib k (unixNanoAfter now d)) = false)
    (hr : io'.read (keyToFilename lib k (unixNanoAfter now d)) = false) :
    ∃ f1, f.Add lib io now k v d = .returned f1 (true, none) ∧
      (now + d < 2 ^ 63 → -2 ^ 63 ≤ now' → now' ≤ now + d →
        f1.Get lib io' now' k = .returned f1 (some v', true)) := by
  refine ⟨_, Add_ok lib io now f k v d c hk hm hc hw, ?_⟩
  intro hhi hlo' hnow
  have hlo : -2 ^ 63 ≤ now + d := le_trans hlo' hnow
  have he := unixNanoAfter_of_inRange now d hlo hhi
  rw [← he] at hnow
  exact Get_hit lib io' now' _ k ⟨unixNanoAfter now d, keyToFilename lib k (unixNanoAfter now d)⟩
    c v' (by simp) hnow (keyToFilename_ne_empty _ _ _) hr (by simp) hu

/-- Witness of C1, amended: `Add("t", 42, time.Hour)` on a new cache,
read one nanosecond later: the `int` 42 comes back as the `float64` 42. -/
theorem add_then_get_roundtrip_witness :
    ∃ f1, (New DemoValue).Add demoLib Faults.none t0 "t" (.int 42) hour
        = .returned f1 (true, none) ∧
      f1.Get demoLib Faults.none (t0 + 1) "t" = .returned f1 (some (.num 42), true) := by
  obtain ⟨f1, hadd, hget⟩ := add_then_get_roundtrip demoLib Faults.none Faults.none t0
    (t0 + 1) (New DemoValue) "t" (.int 42) (.num 42) "42" hour (by decide) (by decide)
    (by decide) rfl rfl rfl
  exact ⟨f1, hadd, hget (by decide) (by decide) (by decide)⟩

/-- Counterexample to C2: after `Set("a", 1, time.Hour)` and
`Set("a", 2, time.Hour)` with the Go `int` 2, `Get("a")` returns the `float64`
2, not the value stored; and after `Set("a", 1, time.Hour)` and
`Set("a", 2, math.MaxInt64)`, whose ttl has not elapsed, `Get("a")` returns
`(nil, false)`. -/
theorem set_twice_counterexample :
    (demoIntSet.Get demoLib Faults.none (t0 + 2) "a").result = some (some (.num 2), true) ∧
      DemoValue.num 2 ≠ DemoValue.int 2 ∧
      t0 + 2 ≤ t0 + 1 + maxDuration ∧
      (demoForeverSet.Get demoLib Faults.none (t0 + 2) "a").result = some (none, false) := by
  decide

/-- C2, amended: from a cache whose index matches its directory, on a
file system without failures and with no other indexed key sharing the digest
of the key, two successive `Set` calls on the same key with values that
serialize and decode both return; afterwards there is exactly one artifact
file for the key, the one of the second write, and as many files as indexed
keys; and when the expiration `now2 + d2` of the second write does not exceed
the `int64` range, a `Get` no later than it returns the decoding of the
encoding of the second value. -/
theorem set_twice_overwrites (lib : Lib V) (now1 now2 now3 : Int) (f : FileCache V)
    (k : String) (v1 v2 v1' v2' : V) (c1 c2 : String) (d1 d2 : Int)
    (hinv : IndexMatchesDir lib f)
    (hm1 : lib.marshal v1 = some c1) (hu1 : lib.unmarshal c1 = some v1')
    (hm2 : lib.marshal v2 = some c2) (hu2 : lib.unmarshal c2 = some v2')
    (hfresh : ∀ k' it, k' ≠ k → f.items.lookup k' = some it →
      ∀ e, it.filename ≠ keyToFilename lib k e) :
    ∃ f1 f2, f.Set lib Faults.none now1 k v1 d1 = .returned f1 () ∧
      f1.Set lib Faults.none now2 k v2 d2 = .returned f2 () ∧
      (now2 + d2 < 2 ^ 63 → -2 ^ 63 ≤ now3 → now3 ≤ now2 + d2 →
        f2.Get lib Faults.none now3 k = .returned f2 (some v2', true)) ∧
      (∀ e, (f2.files.lookup (keyToFilename lib k e)).isSome = true ↔
        keyToFilename lib k e = keyToFilename lib k (unixNanoAfter now2 d2)) ∧
      f2.files.keys.length = f2.ItemCount := by
  obtain ⟨f1, hset1, hinv1, hitems1, _, _⟩ := Set_spec lib now1 f k v1 d1 c1 hinv hm1
    (by simp [hu1]) (fun k' it hk' hit => hfresh k' it hk' hit _)
  have hfresh1 : ∀ k' it, k' ≠ k → f1.items.lookup k' = some it →
      ∀ e, it.filename ≠ keyToFilename lib k e := by
    intro k' it hk' hit
    rw [hitems1, AList.lookup_insert_ne hk'] at hit
    exact hfresh k' it hk' hit
  obtain ⟨f2, hset2, hinv2, hitems2, hfile2, _⟩ := Set_spec lib now2 f1 k v2 d2 c2 hinv1 hm2
    (by simp [hu2]) (fun k' it hk' hit => hfresh1 k' it hk' hit _)
  have hlk : f2.items.lookup k
      = some ⟨unixNanoAfter now2 d2, keyToFilename lib k (unixNanoAfter now2 d2)⟩ := by
    rw [hitems2]
    exact AList.lookup_insert _
  refine ⟨f1, f2, hset1, hset2, ?_, ?_, inv_count lib f2 hinv2⟩
  · intro hhi hlo' hnow
    have he := unixNanoAfter_of_inRange now2 d2 (le_trans hlo' hnow) hhi
    rw [← he] at hnow
    exact Get_hit lib Faults.none now3 f2 k _ c2 v2' hlk hnow
      (keyToFilename_ne_empty _ _ _) rfl hfile2 hu2
  · intro e
    constructor
    · intro hsome
      obtain ⟨k', it', hk', hn'⟩ := inv_owner lib f2 hinv2 _ hsome
      by_cases hkk : k' = k
      · rw [hkk, hlk] at hk'
        cases hk'
        exact hn'.symm
      · rw [hitems2, AList.lookup_insert_ne hkk] at hk'
        exact absurd hn' (hfresh1 k' it' hkk hk' e)
    · intro heq
      rw [heq, hfile2]
      rfl

/-- Witness of C2, amended: on the cache that holds "b",
`Set("a", 1, time.Hour)` then `Set("a", 2, time.Hour)` with Go `int` values,
read one nanosecond later. -/
theorem set_twice_overwrites_witness :
    ∃ f1 f2, demoOther.Set demoLib Faults.none t0 "a" (.int 1) hour = .returned f1 () ∧
      f1.Set demoLib Faults.none (t0 + 1) "a" (.int 2) hour = .returned f2 () ∧
      f2.Get demoLib Faults.none (t0 + 2) "a" = .returned f2 (some (.num 2), true) ∧
      (∀ e, (f2.files.lookup (keyToFilename demoLib "a" e)).isSome = true ↔
        keyToFilename demoLib "a" e
          = keyToFilename demoLib "a" (unixNanoAfter (t0 + 1) hour)) ∧
      f2.files.keys.length = f2.ItemCount := by
  obtain ⟨f1, f2, h1, h2, hget, hone, hcount⟩ := set_twice_overwrites demoLib t0 (t0 + 1)
    (t0 + 2) demoOther "a" (.int 1) (.int 2) (.num 1) (.num 2) "1" "2" hour hour (by decide)
    (by decide) (by decide) (by decide) (by decide) demoOther_fresh
  exact ⟨f1, f2, h1, h2, hget (by decide) (by decide) (by decide), hone, hcount⟩

/-- C3: `Add` on a present key returns `(false, "item is existed")`;
`Replace` and `Delete` on an absent key return the "item is not existed"
error; each of these calls leaves the index, the directory and the record of
hook invocations as they were. -/
theorem presence_preconditions (lib : Lib V) (io : Faults) (now : Int) (f : FileCache V)
    (k : String) (x : V) (d : Int) :
    (f.Has k = true → f.Add lib io now k x d = .returned f (false, some Err.existed)) ∧
    (f.Has k = false →
      f.Replace lib io now k x d = .returned f (false, some Err.notExisted) ∧
      f.Delete lib io k = .returned f (none, some Err.notExisted)) := by
  constructor
  · intro h
    simp [FileCache.Add, h]
  · intro h
    constructor
    · simp [FileCache.Replace, h]
    · simp [FileCache.Delete, h]

/-- Witness of C3: on the cache holding only "a", `Add("a", ..)`
fails, and `Replace("b", ..)` and `Delete("b")` fail. -/
theorem presence_preconditions_witness :
    demoCache.Add demoLib Faults.none t0 "a" (.num 5) hour
        = .returned demoCache (false, some Err.existed) ∧
      demoCache.Replace demoLib Faults.none t0 "b" (.num 5) hour
        = .returned demoCache (false, some Err.notExisted) ∧
      demoCache.Delete demoLib Faults.none "b"
        = .returned demoCache (none, some Err.notExisted) :=
  ⟨(presence_preconditions demoLib Faults.none t0 demoCache "a" (.num 5) hour).1 (by decide),
   (presence_preconditions demoLib Faults.none t0 demoCache "b" (.num 5) hour).2 (by decide)⟩

/-- C4: after a `Set` that returns, and after an `Add` that returns
`(true, nil)`, the key is present, whatever the ttl; after a `Delete` that
returns a nil error the key is absent, and a further `Delete` of it returns
the "item is not existed" error (it does not panic) and changes nothing. -/
theorem has_after_mutation (lib : Lib V) (io : Faults) (now : Int) (f f1 : FileCache V)
    (k : String) (x : V) (d : Int) (r : Option V) :
    (f.Set lib io now k x d = .returned f1 () → f1.Has k = true) ∧
    (f.Add lib io now k x d = .returned f1 (true, none) → f1.Has k = true) ∧
    (f.Delete lib io k = .returned f1 (r, none) →
      f1.Has k = false ∧
      ∀ io', f1.Delete lib io' k = .returned f1 (none, some Err.notExisted)) := by
  refine ⟨?_, ?_, ?_⟩
  · intro h
    obtain ⟨c, files0, _, hf1⟩ := Set_returned lib io now f f1 k x d h
    subst hf1
    simp [FileCache.Has]
  · intro h
    obtain ⟨c, _, _, _, hf1⟩ := Add_returned_ok lib io now f f1 k x d true h
    subst hf1
    simp [FileCache.Has]
  · intro h
    obtain ⟨v, _, _, hf1⟩ := Delete_returned_ok lib io f f1 k r h
    have hhas : f1.Has k = false := by
      subst hf1
      simp [FileCache.Has]
    exact ⟨hhas, fun io' => by simp [FileCache.Delete, hhas]⟩

/-- Witness of C4: `Set("a", 1, time.Hour)` and
`Add("t", 42, time.Hour)` on a new cache, and `Delete("a")` after the former. -/
theorem has_after_mutation_witness :
    demoCache.Has "a" = true ∧ demoAdded.Has "t" = true ∧
      (demoDeleted.Has "a" = false ∧
        ∀ io', demoDeleted.Delete demoLib io' "a"
          = .returned demoDeleted (none, some Err.notExisted)) :=
  ⟨(has_after_mutation demoLib Faults.none t0 (New DemoValue) demoCache "a" (.num 1) hour
      none).1 rfl,
   (has_after_mutation demoLib Faults.none t0 (New DemoValue) demoAdded "t" (.num 42) hour
      none).2.1 rfl,
   (has_after_mutation demoLib Faults.none t0 demoCache demoDeleted "a" (.num 1) hour
      (some (.num 1))).2.2 rfl⟩

/-- C5: after a `Set` that returns or an `Add` that returns
`(true, nil)`, with a serializable value and a negative ttl (an `int64`, the
clock reading a non-negative `int64`), a `Get` of the key at the same instant
or later returns `(nil, false)`, removes the key from the index (the count
drops by one) and its artifact from the directory, and invokes no hook. -/
theorem expired_get_evicts (lib : Lib V) (io io' : Faults) (now now' : Int)
    (f f1 : FileCache V) (k : String) (v v' : V) (c : String) (d : Int)
    (hm : lib.marshal v = some c) (hu : lib.unmarshal c = some v')
    (hd : d < 0) (hdlo : -2 ^ 63 ≤ d) (hnow0 : 0 ≤ now) (hnowhi : now < 2 ^ 63)
    (hnow : now ≤ now')
    (hr : io'.read (keyToFilename lib k (now + d)) = false)
    (hrm : io'.remove (keyToFilename lib k (now + d)) = false)
    (hstore : f.Set lib io now k v d = .returned f1 () ∨
      f.Add lib io now k v d = .returned f1 (true, none)) :
    ∃ f2, f1.Get lib io' now' k = .returned f2 (none, false) ∧
      f2.Has k = false ∧ f2.ItemCount + 1 = f1.ItemCount ∧
      f2.files.lookup (keyToFilename lib k (now + d)) = none ∧
      f2.calls = f1.calls := by
  have hlo : -2 ^ 63 ≤ now + d := by
    norm_num at hdlo hnowhi ⊢
    omega
  have hhi : now + d < 2 ^ 63 := by
    norm_num at hdlo hnowhi ⊢
    omega
  have he := unixNanoAfter_of_inRange now d hlo hhi
  have hne := keyToFilename_ne_empty lib k (now + d)
  have hshape : ∃ files0 calls0, f1 = ⟨f.items.insert k ⟨now + d, keyToFilename lib k (now + d)⟩,
      AList.insert (keyToFilename lib k (now + d)) c files0, calls0⟩ := by
    rcases hstore with h | h
    · obtain ⟨c1, files0, hm1, hf1⟩ := Set_returned lib io now f f1 k v d h
      rw [hm] at hm1
      cases hm1
      rw [he] at hf1
      exact ⟨files0, _, hf1⟩
    · obtain ⟨c1, hm1, _, _, hf1⟩ := Add_returned_ok lib io now f f1 k v d true h
      rw [hm] at hm1
      cases hm1
      rw [he] at hf1
      exact ⟨f.files, _, hf1⟩
  obtain ⟨files0, calls0, hf1⟩ := hshape
  subst hf1
  have hit : AList.lookup k (f.items.insert k ⟨now + d, keyToFilename lib k (now + d)⟩)
      = some ⟨now + d, keyToFilename lib k (now + d)⟩ := AList.lookup_insert _
  have hdel := delete_ok lib io'
    (⟨f.items.insert k ⟨now + d, keyToFilename lib k (now + d)⟩,
      AList.insert (keyToFilename lib k (now + d)) c files0, calls0⟩ : FileCache V)
    k ⟨now + d, keyToFilename lib k (now + d)⟩ c v' hit hne hr hrm (AList.lookup_insert _) hu
  have hx : Item.IsExpired ⟨now + d, keyToFilename lib k (now + d)⟩ now' = true := by
    simp only [Item.IsExpired, decide_eq_true_eq]
    omega
  refine ⟨⟨(f.items.insert k ⟨now + d, keyToFilename lib k (now + d)⟩).erase k,
    (AList.insert (keyToFilename lib k (now + d)) c files0).erase (keyToFilename lib k (now + d)),
    calls0⟩, ?_, ?_, ?_, ?_, rfl⟩
  · simp [FileCache.Get, FileCache.Has, FileCache.item, hx, hdel]
  · simp [FileCache.Has]
  · simp only [FileCache.ItemCount, AList.keys_erase, AList.keys_insert, List.erase_cons_head,
      List.length_cons]
  · simp

/-- Witness of C5: `Set("a", 1, -time.Hour)` on a new cache, read at
the same instant. -/
theorem expired_get_evicts_witness :
    ∃ f2, demoStale.Get demoLib Faults.none t0 "a" = .returned f2 (none, false) ∧
      f2.Has "a" = false ∧ f2.ItemCount + 1 = demoStale.ItemCount ∧
      f2.files.lookup (keyToFilename demoLib "a" (t0 + -hour)) = none ∧
      f2.calls = demoStale.calls :=
  expired_get_evicts demoLib Faults.none Faults.none t0 t0 (New DemoValue) demoStale "a"
    (.num 1) (.num 1) "1" (-hour) (by decide) (by decide) (by decide) (by decide) (by decide)
    (by decide) (by decide) rfl rfl (Or.inl rfl)

/-- Counterexample to C6: "k1" and "k2" have the same expiration
`t0 + 2`; a sweep that reads the clock at `t0 + 2` when it visits "k1" and at
`t0 + 3` when it visits "k2" returns `(true, nil)`, keeps "k1" and removes
"k2": for no instant is what it removes the set of entries with an earlier
expiration. -/
theorem sweep_splits_equal_expirations :
    (demoTwins.item "k1").expiration = t0 + 2 ∧ (demoTwins.item "k2").expiration = t0 + 2 ∧
      demoTwins.Has "k1" = true ∧ demoTwins.Has "k2" = true ∧
      (demoTwins.DeleteExpired demoLib Faults.none demoClock ["k1", "k2"]).result
        = some (true, none) ∧
      (demoTwins.DeleteExpired demoLib Faults.none demoClock ["k1", "k2"]).state.Has "k1"
        = true ∧
      (demoTwins.DeleteExpired demoLib Faults.none demoClock ["k1", "k2"]).state.Has "k2"
        = false := by
  decide

/-- C6, amended: from a cache whose index matches its directory, on a
file system without failures, `DeleteExpired` returns `(true, nil)` whatever
the order in which the keys are visited and whatever the clock reads at each
visit; it removes from the index and from the directory the entries whose
expiration is earlier than the clock reading at their visit, leaves every
other entry and its artifact as they were, adds no entry and no file, and
invokes no hook; so, when all readings lie between `lo` and `hi`, every entry
with an expiration earlier than `lo` is removed and every entry with an
expiration not earlier than `hi` is kept. -/
theorem deleteExpired_exact (lib : Lib V) (clock : String → Int) (order : List String)
    (f : FileCache V) (hinv : IndexMatchesDir lib f) (hord : order.Perm f.items.keys) :
    ∃ f1, f.DeleteExpired lib Faults.none clock order = .returned f1 (true, none) ∧
      (∀ k it, f.items.lookup k = some it → it.IsExpired (clock k) = true →
        f1.items.lookup k = none ∧ f1.files.lookup it.filename = none) ∧
      (∀ k it, f.items.lookup k = some it → it.IsExpired (clock k) = false →
        f1.items.lookup k = some it ∧
        f1.files.lookup it.filename = f.files.lookup it.filename) ∧
      (∀ k, f.items.lookup k = none → f1.items.lookup k = none) ∧
      (∀ n, f.files.lookup n = none → f1.files.lookup n = none) ∧
      f1.calls = f.calls ∧
      (∀ lo hi, (∀ k, lo ≤ clock k ∧ clock k ≤ hi) →
        ∀ k it, f.items.lookup k = some it →
          (it.expiration < lo →
            f1.items.lookup k = none ∧ f1.files.lookup it.filename = none) ∧
          (hi ≤ it.expiration →
            f1.items.lookup k = some it ∧
            f1.files.lookup it.filename = f.files.lookup it.filename)) := by
  obtain ⟨f1, hrun, hinv1, hcalls, hA, hB, hC, hD⟩ := sweep_aux lib clock order f hinv
  have hgone : ∀ k it, f.items.lookup k = some it → it.IsExpired (clock k) = true →
      f1.items.lookup k = none ∧ f1.files.lookup it.filename = none := by
    intro k it hit hx
    have hk : k ∈ order := by
      apply hord.mem_iff.mpr
      apply AList.mem_keys.mp
      apply AList.lookup_isSome.mp
      simp [hit]
    have hgone := hD k hk it hit hx
    refine ⟨hgone, ?_⟩
    by_contra hcon
    obtain ⟨k', it', hk', hn'⟩ := inv_owner lib f1 hinv1 _ (Option.ne_none_iff_isSome.mp hcon)
    have hkk := inv_inj lib f hinv k' k it' it (hA k' it' hk') hit hn'
    rw [hkk, hgone] at hk'
    cases hk'
  refine ⟨f1, hrun, hgone, hC, ?_, ?_, hcalls, ?_⟩
  · intro k hnone
    cases h1 : f1.items.lookup k with
    | none => rfl
    | some it1 =>
      rw [hA k it1 h1] at hnone
      cases hnone
  · intro n hnone
    cases h1 : f1.files.lookup n with
    | none => rfl
    | some c =>
      rw [hB n c h1] at hnone
      cases hnone
  · intro lo hi hbounds k it hit
    constructor
    · intro hlt
      apply hgone k it hit
      simp only [Item.IsExpired, decide_eq_true_eq]
      have := (hbounds k).1
      omega
    · intro hge
      apply hC k it hit
      simp only [Item.IsExpired, decide_eq_false_iff_not]
      have := (hbounds k).2
      omega

/-- Witness of C6, amended: after `Set("k1", 1, -time.Hour)` and
`Set("k2", 2, time.Hour)` on a new cache, `DeleteExpired` succeeds, "k1" is
gone and "k2" is still present. -/
theorem deleteExpired_exact_witness :
    ∃ f1, demoSweep.DeleteExpired demoLib Faults.none (fun _ => t0 + 2) ["k1", "k2"]
        = .returned f1 (true, none) ∧
      f1.Has "k1" = false ∧ f1.Has "k2" = true := by
  obtain ⟨f1, hrun, hexp, hkeep, _, _, _, _⟩ :=
    deleteExpired_exact demoLib (fun _ => t0 + 2) ["k1", "k2"] demoSweep (by decide)
      (by decide)
  have h1 := (hexp "k1" ⟨t0 + -hour, keyToFilename demoLib "k1" (t0 + -hour)⟩
    (by decide) (by decide)).1
  have h2 := (hkeep "k2" ⟨t0 + 1 + hour, keyToFilename demoLib "k2" (t0 + 1 + hour)⟩
    (by decide) (by decide)).1
  exact ⟨f1, hrun, by simp [FileCache.Has, h1], by simp [FileCache.Has, h2]⟩

/-- C7: after a `Set` that returns, with a serializable value, a
`Delete` of the key returns the decoding of the encoding of the value and a
nil error, removes the index entry and the artifact, and invokes the delete
hook once, with the key and the decoded value, and no other hook. -/
theorem set_then_delete (lib : Lib V) (io io' : Faults) (now : Int) (f f1 : FileCache V)
    (k : String) (v v' : V) (c : String) (d : Int)
    (hm : lib.marshal v = some c) (hu : lib.unmarshal c = some v')
    (hr : io'.read (keyToFilename lib k (unixNanoAfter now d)) = false)
    (hrm : io'.remove (keyToFilename lib k (unixNanoAfter now d)) = false)
    (hset : f.Set lib io now k v d = .returned f1 ()) :
    ∃ f2, f1.Delete lib io' k = .returned f2 (some v', none) ∧
      f2.Has k = false ∧
      f2.files.lookup (keyToFilename lib k (unixNanoAfter now d)) = none ∧
      f2.calls = f1.calls ++ [HookEvent.onDelete k v'] := by
  obtain ⟨c1, files0, hm1, hf1⟩ := Set_returned lib io now f f1 k v d hset
  rw [hm] at hm1
  cases hm1
  subst hf1
  have hdel := delete_ok lib io'
    (⟨f.items.insert k ⟨unixNanoAfter now d, keyToFilename lib k (unixNanoAfter now d)⟩,
      AList.insert (keyToFilename lib k (unixNanoAfter now d)) c files0,
      f.calls ++ [HookEvent.onSet k v]⟩ : FileCache V)
    k ⟨unixNanoAfter now d, keyToFilename lib k (unixNanoAfter now d)⟩ c v'
    (AList.lookup_insert _) (keyToFilename_ne_empty _ _ _) hr hrm (AList.lookup_insert _) hu
  refine ⟨⟨(f.items.insert k
      ⟨unixNanoAfter now d, keyToFilename lib k (unixNanoAfter now d)⟩).erase k,
    (AList.insert (keyToFilename lib k (unixNanoAfter now d)) c files0).erase
      (keyToFilename lib k (unixNanoAfter now d)),
    (f.calls ++ [HookEvent.onSet k v]) ++ [HookEvent.onDelete k v']⟩, ?_, ?_, ?_, rfl⟩
  · simp [FileCache.Delete, FileCache.Has, hdel]
  · simp [FileCache.Has]
  · simp

/-- Witness of C7: `Set("a", 1, time.Hour)` on a new cache, then
`Delete("a")`. -/
theorem set_then_delete_witness :
    ∃ f2, demoCache.Delete demoLib Faults.none "a" = .returned f2 (some (.num 1), none) ∧
      f2.Has "a" = false ∧
      f2.files.lookup (keyToFilename demoLib "a" (unixNanoAfter t0 hour)) = none ∧
      f2.calls = demoCache.calls ++ [HookEvent.onDelete "a" (.num 1)] :=
  set_then_delete demoLib Faults.none Faults.none t0 (New DemoValue) demoCache "a"
    (.num 1) (.num 1) "1" hour (by decide) (by decide) rfl rfl rfl

/-- Counterexample to C8: on the cache that holds "a",
`Replace("a", 2, time.Hour)` with the Go `int` 2 is followed by a `Get` that
returns the `float64` 2, not the value passed; and
`Replace("a", 2, math.MaxInt64)` records an expiration that is not
`now + ttl`, and the `Get` that follows at once returns `(nil, false)`. -/
theorem replace_counterexample :
    (demoCache.Replace demoLib Faults.none (t0 + 1) "a" (.int 2) hour).result
        = some (true, none) ∧
      (demoIntReplaced.Get demoLib Faults.none (t0 + 2) "a").result
        = some (some (.num 2), true) ∧
      DemoValue.num 2 ≠ DemoValue.int 2 ∧
      (demoCache.Replace demoLib Faults.none (t0 + 1) "a" (.num 2) maxDuration).result
        = some (true, none) ∧
      (demoForeverReplaced.item "a").expiration ≠ t0 + 1 + maxDuration ∧
      t0 + 1 ≤ t0 + 1 + maxDuration ∧
      (demoForeverReplaced.Get demoLib Faults.none (t0 + 1) "a").result
        = some (none, false) := by
  decide

/-- C8, amended: for a present key whose artifact decodes to `o` and a
value `x` that serializes and decodes, on a file system without failures,
`Replace` returns `(true, nil)`; the old artifact is removed and the new one
written, the index maps the key to the expiration
`time.Now().Add(d).UnixNano()`, which is `now + d` when that fits an `int64`,
the replace hook is invoked once with `(k, o, x)` and no other hook, and a
`Get` no later than the recorded expiration returns the decoding of the
encoding of `x`. -/
theorem replace_postcondition (lib : Lib V) (now : Int) (f : FileCache V) (k : String)
    (it : Item) (c0 c : String) (o x x' : V) (d : Int)
    (hit : f.items.lookup k = some it) (hne : it.filename ≠ "")
    (hfile : f.files.lookup it.filename = some c0) (hu0 : lib.unmarshal c0 = some o)
    (hm : lib.marshal x = some c) (hu : lib.unmarshal c = some x') :
    ∃ f1, f.Replace lib Faults.none now k x d = .returned f1 (true, none) ∧
      f1.items.lookup k
        = some ⟨unixNanoAfter now d, keyToFilename lib k (unixNanoAfter now d)⟩ ∧
      f1.files = (f.files.erase it.filename).insert
        (keyToFilename lib k (unixNanoAfter now d)) c ∧
      f1.calls = f.calls ++ [HookEvent.onReplace k o x] ∧
      (-2 ^ 63 ≤ now + d → now + d < 2 ^ 63 → unixNanoAfter now d = now + d) ∧
      (∀ now', now' ≤ unixNanoAfter now d →
        f1.Get lib Faults.none now' k = .returned f1 (some x', true)) := by
  have hhas : f.Has k = true := by simp [FileCache.Has, hit]
  have hdel := delete_ok lib Faults.none f k it c0 o hit hne rfl rfl hfile hu0
  have hset := set_ok lib Faults.none now
    (⟨f.items.erase k, f.files.erase it.filename, f.calls⟩ : FileCache V) k x d c hm rfl rfl
  have hlk : AList.lookup k ((f.items.erase k).insert k
      ⟨unixNanoAfter now d, keyToFilename lib k (unixNanoAfter now d)⟩)
      = some ⟨unixNanoAfter now d, keyToFilename lib k (unixNanoAfter now d)⟩ :=
    AList.lookup_insert _
  refine ⟨⟨(f.items.erase k).insert k
      ⟨unixNanoAfter now d, keyToFilename lib k (unixNanoAfter now d)⟩,
    (f.files.erase it.filename).insert (keyToFilename lib k (unixNanoAfter now d)) c,
    f.calls ++ [HookEvent.onReplace k o x]⟩, ?_, hlk, rfl, rfl,
    unixNanoAfter_of_inRange now d, ?_⟩
  · simp [FileCache.Replace, hhas, hdel, hset]
  · intro now' hnow
    exact Get_hit lib Faults.none now' _ k _ c x' hlk hnow (keyToFilename_ne_empty _ _ _) rfl
      (AList.lookup_insert _) hu

/-- Witness of C8, amended: `Replace("a", 2, time.Hour)` with the Go
`int` 2 on the cache that holds "a" with value 1. -/
theorem replace_postcondition_witness :
    ∃ f1, demoCache.Replace demoLib Faults.none (t0 + 1) "a" (.int 2) hour
        = .returned f1 (true, none) ∧
      f1.items.lookup "a"
        = some ⟨unixNanoAfter (t0 + 1) hour,
            keyToFilename demoLib "a" (unixNanoAfter (t0 + 1) hour)⟩ ∧
      f1.files = (demoCache.files.erase (keyToFilename demoLib "a" (t0 + hour))).insert
        (keyToFilename demoLib "a" (unixNanoAfter (t0 + 1) hour)) "2" ∧
      f1.calls = demoCache.calls ++ [HookEvent.onReplace "a" (.num 1) (.int 2)] ∧
      unixNanoAfter (t0 + 1) hour = t0 + 1 + hour ∧
      f1.Get demoLib Faults.none (t0 + 2) "a" = .returned f1 (some (.num 2), true) := by
  obtain ⟨f1, hrep, hlk, hfiles, hcalls, hrange, hget⟩ := replace_postcondition demoLib
    (t0 + 1) demoCache "a" ⟨t0 + hour, keyToFilename demoLib "a" (t0 + hour)⟩ "1" "2"
    (.num 1) (.int 2) (.num 2) hour (by decide) (by decide) (by decide) (by decide)
    (by decide) (by decide)
  exact ⟨f1, hrep, hlk, hfiles, hcalls, hrange (by decide) (by decide),
    hget (t0 + 2) (by decide)⟩

/-- C9: an `Add` that returns a nil error invokes the add hook once,
with the key and the value passed, and no other hook; an `Add`, `Replace` or
`Delete` that returns an error invokes no hook. -/
theorem hooks_only_on_success (lib : Lib V) (io : Faults) (now : Int) (f f1 : FileCache V)
    (k : String) (x : V) (d : Int) (b : Bool) (r : Option V) (e : Err) :
    (f.Add lib io now k x d = .returned f1 (b, none) →
      f1.calls = f.calls ++ [HookEvent.onAdd k x]) ∧
    (f.Add lib io now k x d = .returned f1 (b, some e) → f1.calls = f.calls) ∧
    (f.Replace lib io now k x d = .returned f1 (b, some e) → f1.calls = f.calls) ∧
    (f.Delete lib io k = .returned f1 (r, some e) → f1.calls = f.calls) := by
  refine ⟨?_, ?_, ?_, ?_⟩
  · intro h
    obtain ⟨c, _, _, _, hf1⟩ := Add_returned_ok lib io now f f1 k x d b h
    rw [hf1]
  · intro h
    exact (Add_returned_err lib io now f f1 k x d b e h).2.2
  · intro h
    rw [(Replace_returned_err lib io now f f1 k x d b e h).2]
  · intro h
    rw [(Delete_returned_err lib io f f1 k r e h).2]

/-- Witness of C9: `Add("t", 42, time.Hour)` on a new cache invokes
the add hook once with `("t", 42)`; a second `Add("t", ..)`, and
`Replace("b", ..)` and `Delete("b")` on a cache without "b", invoke none. -/
theorem hooks_only_on_success_witness :
    demoAdded.calls = [HookEvent.onAdd "t" (.num 42)] ∧
      (demoAdded.Add demoLib Faults.none t0 "t" (.num 42) hour).state.calls
        = demoAdded.calls ∧
      (demoCache.Replace demoLib Faults.none t0 "b" (.num 5) hour).state.calls
        = demoCache.calls ∧
      (demoCache.Delete demoLib Faults.none "b").state.calls = demoCache.calls :=
  ⟨(hooks_only_on_success demoLib Faults.none t0 (New DemoValue) demoAdded "t" (.num 42) hour
      true none Err.existed).1 rfl,
   (hooks_only_on_success demoLib Faults.none t0 demoAdded demoAdded "t" (.num 42) hour
      false none Err.existed).2.1 rfl,
   (hooks_only_on_success demoLib Faults.none t0 demoCache demoCache "b" (.num 5) hour
      false none Err.notExisted).2.2.1 rfl,
   (hooks_only_on_success demoLib Faults.none t0 demoCache demoCache "b" (.num 5) hour
      false none Err.notExisted).2.2.2 rfl⟩

/-- C10 (the code departs from the claim): on the cache that holds "a",
`Replace("a", x, time.Hour)` with a value `x` that `json.Marshal` rejects does
not return an error: it panics, after the entry of "a" and its artifact have
been removed and an empty file has been created. -/
theorem replace_unencodable_panics :
    demoCache.Replace demoLib Faults.none (t0 + 1) "a" DemoValue.chan hour
        = .panicked ⟨∅, AList.insert (keyToFilename demoLib "a" (t0 + 1 + hour)) "" ∅,
            [HookEvent.onSet "a" (.num 1)]⟩ := by
  rfl

/-- C11 (the code departs from the claim): on the cache that holds "a",
`Set("a", x, time.Hour)` with a value `x` that `json.Marshal` rejects has
touched the directory when it fails: the artifact of "a" and its index entry
are removed and an empty file is created before the encoding is attempted. -/
theorem set_unencodable_touches_files :
    demoCache.Set demoLib Faults.none (t0 + 1) "a" DemoValue.chan hour
        = .panicked ⟨∅, AList.insert (keyToFilename demoLib "a" (t0 + 1 + hour)) "" ∅,
            [HookEvent.onSet "a" (.num 1)]⟩ ∧
      demoCache.files.lookup (keyToFilename demoLib "a" (t0 + hour)) = some "1" ∧
      demoCache.Has "a" = true :=
  ⟨rfl, by decide, by decide⟩

/-- C12: `Get` always returns (it never panics, and its result is a
value and a flag, no error); it returns `(nil, false)` when the key is absent,
when the entry is expired, when the artifact is missing or cannot be read, and
when the artifact does not decode; when the key is absent or the entry is not
expired, it leaves the cache as it was. -/
theorem get_uniform_miss (lib : Lib V) (io : Faults) (now : Int) (f : FileCache V)
    (k : String) :
    (∃ f1 r, f.Get lib io now k = .returned f1 r) ∧
    (f.Has k = false → f.Get lib io now k = .returned f (none, false)) ∧
    ((f.item k).IsExpired now = true →
      ∃ f1, f.Get lib io now k = .returned f1 (none, false)) ∧
    (f.files.lookup (f.item k).filename = none ∨ io.read (f.item k).filename = true →
      ∃ f1, f.Get lib io now k = .returned f1 (none, false)) ∧
    (∀ c, f.files.lookup (f.item k).filename = some c → lib.unmarshal c = none →
      ∃ f1, f.Get lib io now k = .returned f1 (none, false)) ∧
    (f.Has k = false ∨ (f.item k).IsExpired now = false →
      ∃ r, f.Get lib io now k = .returned f r) := by
  cases hhas : f.Has k with
  | false =>
    have hget : f.Get lib io now k = .returned f (none, false) := by
      simp [FileCache.Get, hhas]
    exact ⟨⟨_, _, hget⟩, fun _ => hget, fun _ => ⟨_, hget⟩, fun _ => ⟨_, hget⟩,
      fun _ _ _ => ⟨_, hget⟩, fun _ => ⟨_, hget⟩⟩
  | true =>
    cases hx : (f.item k).IsExpired now with
    | true =>
      have hget : f.Get lib io now k = .returned (f.delete lib io k).1 (none, false) := by
        simp [FileCache.Get, hhas, hx]
      exact ⟨⟨_, _, hget⟩, fun h => (by cases h), fun _ => ⟨_, hget⟩, fun _ => ⟨_, hget⟩,
        fun _ _ _ => ⟨_, hget⟩, fun h => (by rcases h with h | h <;> cases h)⟩
    | false =>
      cases hread : readFile io f.files (f.item k).filename with
      | none =>
        have hget : f.Get lib io now k = .returned f (none, false) := by
          simp [FileCache.Get, hhas, hx, hread]
        exact ⟨⟨_, _, hget⟩, fun h => (by cases h), fun _ => ⟨_, hget⟩, fun _ => ⟨_, hget⟩,
          fun _ _ _ => ⟨_, hget⟩, fun _ => ⟨_, hget⟩⟩
      | some content =>
        have hlk : f.files.lookup (f.item k).filename = some content ∧
            io.read (f.item k).filename = false := by
          simp only [readFile] at hread
          split at hread
          · cases hread
          · rename_i hcond
            exact ⟨hread, by simpa using (not_or.mp hcond).2⟩
        cases hu : lib.unmarshal content with
        | none =>
          have hget : f.Get lib io now k = .returned f (none, false) := by
            simp [FileCache.Get, hhas, hx, hread, hu]
          exact ⟨⟨_, _, hget⟩, fun h => (by cases h), fun _ => ⟨_, hget⟩, fun _ => ⟨_, hget⟩,
            fun _ _ _ => ⟨_, hget⟩, fun _ => ⟨_, hget⟩⟩
        | some v =>
          have hget : f.Get lib io now k = .returned f (some v, true) := by
            simp [FileCache.Get, hhas, hx, hread, hu]
          refine ⟨⟨_, _, hget⟩, fun h => (by cases h), fun h => (by cases h), ?_, ?_,
            fun _ => ⟨_, hget⟩⟩
          · intro h
            rcases h with h | h
            · rw [hlk.1] at h
              cases h
            · rw [hlk.2] at h
              cases h
          · intro c hc hnone
            rw [hlk.1] at hc
            cases hc
            rw [hu] at hnone
            cases hnone

/-- Witness of C12: a `Get` of an absent key, of an expired entry, of
an entry whose artifact is missing, and of an entry whose artifact is not
JSON. -/
theorem get_uniform_miss_witness :
    demoCache.Get demoLib Faults.none t0 "b" = .returned demoCache (none, false) ∧
      (∃ f1, demoStale.Get demoLib Faults.none t0 "a" = .returned f1 (none, false)) ∧
      (∃ f1, demoOrphan.Get demoLib Faults.none t0 "a" = .returned f1 (none, false)) ∧
      (∃ f1, demoGarbled.Get demoLib Faults.none t0 "a" = .returned f1 (none, false)) ∧
      (∃ r, demoCache.Get demoLib Faults.none t0 "a" = .returned demoCache r) :=
  ⟨(get_uniform_miss demoLib Faults.none t0 demoCache "b").2.1 (by decide),
   (get_uniform_miss demoLib Faults.none t0 demoStale "a").2.2.1 (by decide),
   (get_uniform_miss demoLib Faults.none t0 demoOrphan "a").2.2.2.1 (Or.inl (by decide)),
   (get_uniform_miss demoLib Faults.none t0 demoGarbled "a").2.2.2.2.1 "x" (by decide)
     (by decide),
   (get_uniform_miss demoLib Faults.none t0 demoCache "a").2.2.2.2.2 (Or.inr (by decide))⟩

/-- C13: from a cache whose index matches its directory, on a file
system without failures, `Clear` returns true whatever the order in which the
keys are visited, and afterwards the count is 0, no key is present and no
artifact of a previously indexed entry remains; and, in any cache state, when
the removal of an indexed key that the loop visits fails, `Clear` returns
false. -/
theorem clear_empties (lib : Lib V) (io : Faults) (order order' : List String)
    (f : FileCache V) :
    (IndexMatchesDir lib f → order.Perm f.items.keys →
      ∃ f1, f.Clear lib Faults.none order = .returned f1 true ∧
        f1.ItemCount = 0 ∧ (∀ k, f1.Has k = false) ∧
        (∀ k it, f.items.lookup k = some it → f1.files.lookup it.filename = none)) ∧
    (∀ k, k ∈ order' → f.Has k = true → (∃ e, (f.delete lib io k).2 = .error e) →
      ∃ f1, f.Clear lib io order' = .returned f1 false) := by
  constructor
  · intro hinv hord
    obtain ⟨f1, hrun, hinv1, _, hA, hD⟩ := clear_aux lib order f hinv
    have hnone : ∀ k, f1.items.lookup k = none := by
      intro k
      cases h1 : f1.items.lookup k with
      | none => rfl
      | some it1 =>
        have h2 := hA k it1 h1
        have hk : k ∈ order := by
          apply hord.mem_iff.mpr
          apply AList.mem_keys.mp
          apply AList.lookup_isSome.mp
          simp [h2]
        rw [hD k hk] at h1
        cases h1
    refine ⟨⟨∅, f1.files, f1.calls⟩, ?_, rfl, fun k => rfl, ?_⟩
    · simp [FileCache.Clear, hrun]
    · intro k it _
      by_contra hcon
      obtain ⟨k', it', hk', _⟩ := inv_owner lib f1 hinv1 _ (Option.ne_none_iff_isSome.mp hcon)
      rw [hnone k'] at hk'
      cases hk'
  · intro k hk hhas hfail
    have h := clear_fails lib io order' f k hk hhas hfail
    cases hloop : FileCache.clearLoop lib io f order' with
    | mk f1 b =>
      rw [hloop] at h
      simp only at h
      subst h
      exact ⟨f1, by simp [FileCache.Clear, hloop]⟩

/-- Witness of C13: `Clear` after two `Set` calls on a new cache, and
`Clear` on a cache whose only artifact is missing. -/
theorem clear_empties_witness :
    (∃ f1, demoSweep.Clear demoLib Faults.none ["k1", "k2"] = .returned f1 true ∧
        f1.ItemCount = 0 ∧ (∀ k, f1.Has k = false) ∧
        (∀ k it, demoSweep.items.lookup k = some it → f1.files.lookup it.filename = none)) ∧
      (∃ f1, demoOrphan.Clear demoLib Faults.none ["a"] = .returned f1 false) :=
  ⟨(clear_empties demoLib Faults.none ["k1", "k2"] [] demoSweep).1 (by decide) (by decide),
   (clear_empties demoLib Faults.none [] ["a"] demoOrphan).2 "a" (by decide) (by decide)
     ⟨Err.readFailed, rfl⟩⟩

/-- Counterexample to C14: the entry stored by `Set("k", 1, 2ns)` at
`t0` is kept by a `DeleteExpired` that reads the clock at `t0 + 2`, which
succeeds and changes nothing, and removed by the `DeleteExpired` that follows
and reads the clock at `t0 + 3`: the second call is not a no-op. -/
theorem sweep_twice_counterexample :
    demoBrief.DeleteExpired demoLib Faults.none (fun _ => t0 + 2) ["k"]
        = .returned demoBrief (true, none) ∧
      demoBrief.Has "k" = true ∧
      (demoBrief.DeleteExpired demoLib Faults.none (fun _ => t0 + 3) ["k"]).state.Has "k"
        = false :=
  ⟨rfl, by decide, by decide⟩

/-- C14, amended: in every cache state, when a `DeleteExpired` that
visits every indexed key returns `(true, nil)`, and every entry it leaves
that was not expired at the clock reading of its visit is not expired at the
clock reading of its visit in the next call either (as when both calls read
the same instants), the next `DeleteExpired` returns `(true, nil)` and leaves
the index, the directory and the hook record as the first left them. -/
theorem sweep_twice_noop (lib : Lib V) (io1 io2 : Faults) (clock1 clock2 : String → Int)
    (order1 order2 : List String) (f f1 : FileCache V)
    (hcover : ∀ k ∈ f.items.keys, k ∈ order1)
    (hfirst : f.DeleteExpired lib io1 clock1 order1 = .returned f1 (true, none))
    (hquiet : ∀ k it, f1.items.lookup k = some it → it.IsExpired (clock1 k) = false →
      it.IsExpired (clock2 k) = false) :
    f1.DeleteExpired lib io2 clock2 order2 = .returned f1 (true, none) := by
  obtain ⟨hA, hD⟩ := sweep_success_clean lib io1 clock1 order1 f f1 hfirst
  apply sweep_noop
  intro k it hit
  have hk : k ∈ order1 := by
    apply hcover
    apply AList.mem_keys.mp
    apply AList.lookup_isSome.mp
    simp [hA k it hit]
  exact hquiet k it hit (hD k hk it hit)

/-- Witness of C14, amended: two sweeps that read the same instant
after `Set("k1", 1, -time.Hour)` and `Set("k2", 2, time.Hour)`. -/
theorem sweep_twice_noop_witness :
    (demoSweep.DeleteExpired demoLib Faults.none (fun _ => t0 + 2)
        ["k1", "k2"]).state.DeleteExpired demoLib Faults.none (fun _ => t0 + 2) ["k2", "k1"]
      = .returned
          (demoSweep.DeleteExpired demoLib Faults.none (fun _ => t0 + 2) ["k1", "k2"]).state
          (true, none) :=
  sweep_twice_noop demoLib Faults.none Faults.none (fun _ => t0 + 2) (fun _ => t0 + 2)
    ["k1", "k2"] ["k2", "k1"] demoSweep _ (by decide) rfl (fun _ _ _ h => h)

/-- C15: in every cache state `ItemCount` is the number of keys for
which `Has` is true; neither takes the clock into account: an entry stored by
`Set` or `Add` with a negative ttl is expired at every later instant, yet it
is reported present and it is counted. -/
theorem itemCount_counts_has (lib : Lib V) (io : Faults) (now now' : Int)
    (f f1 : FileCache V) (k : String) (x : V) (d : Int) :
    (∃ s : Finset String, (∀ k', k' ∈ s ↔ f.Has k' = true) ∧ s.card = f.ItemCount) ∧
    (d < 0 → -2 ^ 63 ≤ now + d → now + d < 2 ^ 63 → now ≤ now' →
      (f.Set lib io now k x d = .returned f1 () ∨
        f.Add lib io now k x d = .returned f1 (true, none)) →
      (f1.item k).IsExpired now' = true ∧ f1.Has k = true ∧
        f1.ItemCount = (f.items.erase k).keys.length + 1) := by
  constructor
  · refine ⟨f.items.keys.toFinset, ?_, ?_⟩
    · intro k'
      rw [List.mem_toFinset, ← AList.mem_keys, ← AList.lookup_isSome]
      rfl
    · exact List.toFinset_card_of_nodup f.items.keys_nodup
  · intro hd hlo hhi hnow hstore
    have he := unixNanoAfter_of_inRange now d hlo hhi
    have hitems : f1.items = f.items.insert k ⟨now + d, keyToFilename lib k (now + d)⟩ := by
      rcases hstore with h | h
      · obtain ⟨c, files0, _, hf1⟩ := Set_returned lib io now f f1 k x d h
        rw [hf1, he]
      · obtain ⟨c, _, _, _, hf1⟩ := Add_returned_ok lib io now f f1 k x d true h
        rw [hf1, he]
    refine ⟨?_, ?_, ?_⟩
    · simp only [FileCache.item, hitems, AList.lookup_insert, Option.getD_some, Item.IsExpired,
        decide_eq_true_eq]
      omega
    · simp [FileCache.Has, hitems]
    · simp [FileCache.ItemCount, hitems, AList.keys_insert, AList.keys_erase]

/-- Witness of C15: after `Set("a", 1, -time.Hour)` on a new cache the
entry is expired, present and counted. -/
theorem itemCount_counts_has_witness :
    (demoStale.item "a").IsExpired t0 = true ∧ demoStale.Has "a" = true ∧
      demoStale.ItemCount = ((New DemoValue).items.erase "a").keys.length + 1 :=
  (itemCount_counts_has demoLib Faults.none t0 t0 (New DemoValue) demoStale "a" (.num 1)
    (-hour)).2 (by decide) (by decide) (by decide) (by decide) (Or.inl rfl)

/-- C16 (the code departs from the claim): `Has`, `ItemCount`, `Set`
and `Delete` follow the discipline, but `Replace` on a present key removes the
artifact and the index entry, creates the new artifact and records the new
entry while it holds the read lock only, and so does `Get` when it evicts an
expired entry. -/
theorem replace_mutates_under_read_lock :
    demoCache.ReplaceSteps demoLib Faults.none (t0 + 1) "a" (.num 2) hour
        = [.RLock, .readItems, .RUnlock, .RLock, .readItems,
            .removeFile (keyToFilename demoLib "a" (t0 + hour)), .deleteItem "a",
            .createFile (keyToFilename demoLib "a" (t0 + 1 + hour)), .putItem "a",
            .RUnlock] ∧
      writeLockedMutations Held.nothing
        (demoCache.ReplaceSteps demoLib Faults.none (t0 + 1) "a" (.num 2) hour) = false ∧
      demoStale.GetSteps demoLib Faults.none t0 "a"
        = [.RLock, .readItems, .RUnlock, .RLock, .readItems, .readItems,
            .removeFile (keyToFilename demoLib "a" (t0 + -hour)), .deleteItem "a",
            .RUnlock] ∧
      writeLockedMutations Held.nothing (demoStale.GetSteps demoLib Faults.none t0 "a")
        = false ∧
      writeLockedMutations Held.nothing
        (demoCache.SetSteps demoLib Faults.none (t0 + 1) "a" (.num 2) hour) = true ∧
      writeLockedMutations Held.nothing (demoCache.DeleteSteps demoLib Faults.none "a")
        = true ∧
      lockedReads Held.nothing FileCache.HasSteps = true ∧
      lockedReads Held.nothing FileCache.ItemCountSteps = true := by
  decide

/-- C17: starting from `New` on an empty directory, after every call
of a sequence of `Set`, `Add`, `Get`, `Replace`, `Delete`, `Clear` and
`DeleteExpired` calls, whatever failures the file system shows and whether
the calls return a value, return an error or panic, every key of the index
names an artifact that exists in the directory and decodes; the keys used do
not collide pairwise, and what `json.Marshal` produces decodes. -/
theorem index_entries_backed (lib : Lib V) (steps : List (Faults × Int × Call V)) (n : Nat)
    (hdec : ∀ x c, lib.marshal x = some c → (lib.unmarshal c).isSome = true)
    (hcol : NoCollision lib (usedKeys steps)) :
    ∀ k it, ((New V).run lib (steps.take n)).items.lookup k = some it →
      ∃ c v, ((New V).run lib (steps.take n)).files.lookup it.filename = some c ∧
        lib.unmarshal c = some v := by
  have hnew : EntriesBacked lib (usedKeys steps) (New V) := by
    intro k it hit
    simp [New] at hit
  have hb := backed_run lib (usedKeys steps) hcol hdec (steps.take n) (New V) hnew
    (usedKeys_take steps n)
  intro k it hit
  obtain ⟨_, _, c, hc, hsome⟩ := hb k it hit
  obtain ⟨v, hv⟩ := Option.isSome_iff_exists.mp hsome
  exact ⟨c, v, hc, hv⟩

set_option maxRecDepth 100000 in
/-- Witness of C17: after the seven calls of `demoSteps`, among them a
`Replace` that panics and an `Add` that returns an error, the index holds "b"
and its artifact exists and decodes. -/
theorem index_entries_backed_witness :
    ((New DemoValue).run demoLib (demoSteps.take 7)).items.lookup "b"
        = some ⟨t0 + 5 + hour, keyToFilename demoLib "b" (t0 + 5 + hour)⟩ ∧
      ∃ c v, ((New DemoValue).run demoLib (demoSteps.take 7)).files.lookup
          (keyToFilename demoLib "b" (t0 + 5 + hour)) = some c ∧
        demoLib.unmarshal c = some v :=
  ⟨rfl,
   index_entries_backed demoLib demoSteps 7 demoLib_decodes demoSteps_noCollision "b"
     ⟨t0 + 5 + hour, keyToFilename demoLib "b" (t0 + 5 + hour)⟩ rfl⟩

/-- Counterexample to C18: `Set("a", 1, time.Hour)` at `t0` and then
`Set("a", 2, time.Hour - 1ns)` one nanosecond later record the same
expiration and the same filename, although the value has changed. -/
theorem write_reuses_filename_counterexample :
    (demoCache.Set demoLib Faults.none (t0 + 1) "a" (.num 2) (hour - 1)).state.items.lookup "a"
        = demoCache.items.lookup "a" ∧
      demoCache.items.lookup "a" = some ⟨t0 + hour, keyToFilename demoLib "a" (t0 + hour)⟩ ∧
      demoCache.files.lookup (keyToFilename demoLib "a" (t0 + hour)) = some "1" ∧
      (demoCache.Set demoLib Faults.none (t0 + 1) "a" (.num 2) (hour - 1)).state.files.lookup
          (keyToFilename demoLib "a" (t0 + hour)) = some "2" := by
  decide

/-- C18, amended: every write of a key (a `Set` that returns, an `Add`
or a `Replace` that returns `(true, nil)`) records the expiration
`time.Now().Add(d).UnixNano()` and the filename derived from the key and that
expiration; two writes of the same key record the same filename exactly when
they record the same expiration, and different filenames otherwise. -/
theorem write_filename_fresh_iff (lib : Lib V) (io io' : Faults) (now now' : Int)
    (f f1 g g1 : FileCache V) (k : String) (x x' : V) (d d' : Int)
    (hw1 : f.Set lib io now k x d = .returned f1 () ∨
      f.Add lib io now k x d = .returned f1 (true, none) ∨
      f.Replace lib io now k x d = .returned f1 (true, none))
    (hw2 : g.Set lib io' now' k x' d' = .returned g1 () ∨
      g.Add lib io' now' k x' d' = .returned g1 (true, none) ∨
      g.Replace lib io' now' k x' d' = .returned g1 (true, none)) :
    ∃ it1 it2, f1.items.lookup k = some it1 ∧ g1.items.lookup k = some it2 ∧
      it1.expiration = unixNanoAfter now d ∧ it2.expiration = unixNanoAfter now' d' ∧
      it1.filename = keyToFilename lib k it1.expiration ∧
      it2.filename = keyToFilename lib k it2.expiration ∧
      (it1.filename = it2.filename ↔ it1.expiration = it2.expiration) :=
  ⟨_, _, write_records lib io now f f1 k x d hw1, write_records lib io' now' g g1 k x' d' hw2,
    rfl, rfl, rfl, rfl, keyToFilename_injective_expired lib k _ _⟩

/-- Witness of C18, amended: `Set("a", 1, time.Hour)` on a new cache
and `Set("a", 2, time.Hour)` one nanosecond later. -/
theorem write_filename_fresh_iff_witness :
    ∃ it1 it2, demoCache.items.lookup "a" = some it1 ∧
      demoRewritten.items.lookup "a" = some it2 ∧
      it1.expiration = unixNanoAfter t0 hour ∧ it2.expiration = unixNanoAfter (t0 + 1) hour ∧
      it1.filename = keyToFilename demoLib "a" it1.expiration ∧
      it2.filename = keyToFilename demoLib "a" it2.expiration ∧
      (it1.filename = it2.filename ↔ it1.expiration = it2.expiration) :=
  write_filename_fresh_iff demoLib Faults.none Faults.none t0 (t0 + 1) (New DemoValue)
    demoCache demoCache demoRewritten "a" (.num 1) (.num 2) hour hour (Or.inl rfl) (Or.inl rfl)

/-- Counterexample to C19: the names of the two inputs of the test,
`("test_key", 101010)` and `("test_key", 1111101010)`, have different lengths,
39 and 43. -/
theorem keyToFilename_length_counterexample :
    keyToFilename testLib "test_key" 101010 = "8c32d1183251df9828f929b935ae0419_101010" ∧
      keyToFilename testLib "test_key" 1111101010
        = "8c32d1183251df9828f929b935ae0419_1111101010" ∧
      (keyToFilename testLib "test_key" 101010).length = 39 ∧
      (keyToFilename testLib "test_key" 1111101010).length = 43 ∧
      (keyToFilename testLib "test_key" 101010).length
        ≠ (keyToFilename testLib "test_key" 1111101010).length := by
  decide

/-- C19, amended: the name computed on the shared hash object does
not depend on the state earlier calls left it in: it is a function of the key
and the expiration; it is made of the hexadecimal digest of the key, `_` and
the decimal notation of the expiration, so its length is the length of the
digest plus one plus the length of that notation (which varies), and each of
its characters is a character of the digest, `_`, `-` or a decimal digit. -/
theorem keyToFilename_shape (lib : Lib V) (h h' : Hasher) (k : String) (e : Int) :
    (keyToFilenameWith lib h k e).1 = keyToFilename lib k e ∧
    (keyToFilenameWith lib h' k e).1 = (keyToFilenameWith lib h k e).1 ∧
    (keyToFilename lib k e).length = (lib.md5hex k).length + 1 + (toString e).length ∧
    1 ≤ (toString e).length ∧
    (∀ c ∈ (keyToFilename lib k e).data,
      c ∈ (lib.md5hex k).data ∨ c = '_' ∨ c = '-' ∨ c.isDigit = true) := by
  have hrun : ∀ h0 : Hasher, (keyToFilenameWith lib h0 k e).1 = keyToFilename lib k e := by
    intro h0
    simp [keyToFilenameWith, keyToFilename, Hasher.Reset, Hasher.Write, Hasher.SumHex]
  refine ⟨hrun h, by rw [hrun h, hrun h'], ?_, ?_, ?_⟩
  · simp only [keyToFilename, String.length_append]
    rfl
  · have hne : (toString e).data ≠ [] := by
      cases e with
      | ofNat m => exact (natRepr_spec m).1
      | negSucc m =>
        intro hnil
        have hdata : ("-" ++ Nat.repr (m + 1)).data = [] := hnil
        simp [String.data_append] at hdata
    have hpos : 0 < (toString e).data.length := List.length_pos.mpr hne
    exact hpos
  · intro c hc
    simp only [keyToFilename, String.data_append, List.mem_append] at hc
    rcases hc with (hc | hc) | hc
    · exact Or.inl hc
    · right
      left
      simpa using hc
    · rcases intToString_chars e c hc with hd | hd
      · exact Or.inr (Or.inr (Or.inr hd))
      · exact Or.inr (Or.inr (Or.inl hd))

/-- C20: from a cache whose index matches its directory, for two
distinct keys such that no artifact name of `k` is the artifact of `k'`, a
`Set`, `Add`, `Replace`, `Delete` or `Get` on `k`, however it ends, leaves the
index entry of `k'` and the content of its artifact as they were, so that
`Has(k')` and the result of `Get(k')` are the same before and after. -/
theorem per_key_frame (lib : Lib V) (io : Faults) (now : Int) (f : FileCache V)
    (k k' : String) (x : V) (d : Int) (it' : Item)
    (hinv : IndexMatchesDir lib f) (hne : k ≠ k')
    (hit' : f.items.lookup k' = some it')
    (hcol : ∀ e, keyToFilename lib k e ≠ it'.filename) :
    ∀ g, g ∈ [(f.Set lib io now k x d).state, (f.Add lib io now k x d).state,
        (f.Replace lib io now k x d).state, (f.Delete lib io k).state,
        (f.Get lib io now k).state] →
      g.items.lookup k' = some it' ∧
      g.files.lookup it'.filename = f.files.lookup it'.filename ∧
      g.Has k' = f.Has k' ∧
      ∀ io' now', (g.Get lib io' now' k').result = (f.Get lib io' now' k').result := by
  have hk : k' ≠ k := fun h => hne h.symm
  have hitem' : f.item k' = it' := by simp [FileCache.item, hit']
  have hnew : it'.filename ≠ keyToFilename lib k (unixNanoAfter now d) :=
    fun h => hcol _ h.symm
  have hold : it'.filename ≠ (f.item k).filename := by
    cases hit : f.items.lookup k with
    | none =>
      simp only [FileCache.item, hit, Option.getD_none, Item.zero]
      exact (inv_lookup lib f hinv k' it' hit').1
    | some it =>
      simp only [FileCache.item, hit, Option.getD_some]
      intro h
      exact hk (inv_inj lib f hinv k' k it' it hit' hit h)
  have hall : ∀ g : FileCache V, FrameOf f g k'
      [(f.item k).filename, keyToFilename lib k (unixNanoAfter now d)] →
      g.items.lookup k' = some it' ∧
      g.files.lookup it'.filename = f.files.lookup it'.filename ∧
      g.Has k' = f.Has k' ∧
      ∀ io' now', (g.Get lib io' now' k').result = (f.Get lib io' now' k').result := by
    intro g hg
    have hfile : g.files.lookup it'.filename = f.files.lookup it'.filename :=
      hg.2 _ (by simp [hold, hnew])
    refine ⟨hg.1.trans hit', hfile, by simp [FileCache.Has, hg.1], ?_⟩
    intro io' now'
    exact Get_result_congr lib io' now' f g k' hg.1 (by rw [hitem']; exact hfile)
  have hwiden : ∀ g : FileCache V, ∀ n : String, FrameOf f g k' [n] →
      n ∈ [(f.item k).filename, keyToFilename lib k (unixNanoAfter now d)] →
      FrameOf f g k' [(f.item k).filename, keyToFilename lib k (unixNanoAfter now d)] := by
    intro g n hg hn
    exact ⟨hg.1, fun m hm => hg.2 m (fun h => hm (by simp at h; rw [h]; exact hn))⟩
  intro g hg
  simp only [List.mem_cons, List.mem_singleton, List.not_mem_nil, or_false] at hg
  rcases hg with rfl | rfl | rfl | rfl | rfl
  · exact hall _ (Set_frame lib io now f k k' x d hk)
  · exact hall _ (hwiden _ _ (Add_frame lib io now f k k' x d hk) (by simp))
  · exact hall _ (Replace_frame lib io now f k k' x d hk)
  · exact hall _ (hwiden _ _ (Delete_frame lib io f k k' hk) (by simp))
  · exact hall _ (hwiden _ _ (Get_frame lib io now f k k' hk) (by simp))

/-- Witness of C20: on the cache that holds "a" and "b",
`Replace("a", 2, time.Hour)` leaves "b" as it was. -/
theorem per_key_frame_witness :
    (demoPair.Replace demoLib Faults.none (t0 + 2) "a" (.num 2) hour).state.items.lookup "b"
        = some ⟨t0 + 1 + hour, keyToFilename demoLib "b" (t0 + 1 + hour)⟩ ∧
      (demoPair.Replace demoLib Faults.none (t0 + 2) "a" (.num 2) hour).state.files.lookup
          (keyToFilename demoLib "b" (t0 + 1 + hour))
        = demoPair.files.lookup (keyToFilename demoLib "b" (t0 + 1 + hour)) ∧
      (demoPair.Replace demoLib Faults.none (t0 + 2) "a" (.num 2) hour).state.Has "b"
        = demoPair.Has "b" ∧
      ∀ io' now',
        ((demoPair.Replace demoLib Faults.none (t0 + 2) "a" (.num 2) hour).state.Get
          demoLib io' now' "b").result = (demoPair.Get demoLib io' now' "b").result :=
  per_key_frame demoLib Faults.none (t0 + 2) demoPair "a" "b" (.num 2) hour
    ⟨t0 + 1 + hour, keyToFilename demoLib "b" (t0 + 1 + hour)⟩ (by decide) (by decide)
    (by decide) demoPair_distinct_digests _ (by simp)

end Claims

end Filecache
